import Mathlib

/-!
Verification of the hierarchy-resolution core of the bracketing-arrows plugin
(tree building from `{id|parentId|label}` markers, paragraph grouping,
connector-hierarchy inference, and the node-id allocator).

Embedding conventions, used consistently below:
* JS strings are `String`; where character-level manipulation occurs (the id
  allocator) they are `List Char`.
* JS numbers holding document offsets are `Nat` (tree side, CodeMirror offsets)
  or `Int` (connector side, where differences and `Math.abs` appear).
* JS `Map`s are insertion-ordered association lists; `Map.set` on an existing
  key updates the value in place, keeping the key's position.
* In-place mutation of shared node/connector objects is modelled by threading
  the updated association list / list of records through folds; object
  references are replaced by the (unique) key used to fetch them.
* `Array.prototype.sort` (stable per ES2019) is modelled by the stable
  insertion sort `sortS`.
* The JS field name `from` is a Lean keyword, so it is rendered `fromPos`
  (and `to` as `toPos`).
-/

/-! ### Stable insertion sort (model of `Array.prototype.sort`) -/

def insertS {α : Type} (le : α → α → Bool) (x : α) : List α → List α
  | [] => [x]
  | y :: ys => if le x y then x :: y :: ys else y :: insertS le x ys

def sortS {α : Type} (le : α → α → Bool) : List α → List α
  | [] => []
  | x :: xs => insertS le x (sortS le xs)

theorem perm_insertS {α : Type} (le : α → α → Bool) (x : α) (l : List α) :
    (insertS le x l).Perm (x :: l) := by
  induction l with
  | nil => simp [insertS]
  | cons y ys ih =>
    simp only [insertS]
    by_cases h : le x y
    · simp [h]
    · simp only [h, if_neg]
      exact ((ih.cons y).trans (List.Perm.swap x y ys)).symm.symm

theorem perm_sortS {α : Type} (le : α → α → Bool) (l : List α) :
    (sortS le l).Perm l := by
  induction l with
  | nil => simp [sortS]
  | cons x xs ih =>
    exact (perm_insertS le x (sortS le xs)).trans (ih.cons x)

theorem mem_sortS {α : Type} (le : α → α → Bool) (l : List α) (a : α) :
    a ∈ sortS le l ↔ a ∈ l :=
  (perm_sortS le l).mem_iff

theorem length_sortS {α : Type} (le : α → α → Bool) (l : List α) :
    (sortS le l).length = l.length :=
  (perm_sortS le l).length_eq

theorem pairwise_insertS {α : Type} (le : α → α → Bool)
    (htot : ∀ a b, le a b = false → le b a = true)
    (htrans : ∀ a b c, le a b = true → le b c = true → le a c = true)
    (x : α) (l : List α)
    (h : l.Pairwise (fun a b => le a b = true)) :
    (insertS le x l).Pairwise (fun a b => le a b = true) := by
  induction l with
  | nil => simp [insertS]
  | cons y ys ih =>
    simp only [insertS]
    rcases h with - | ⟨hy, hys⟩
    by_cases hxy : le x y = true
    · rw [if_pos hxy]
      refine List.Pairwise.cons ?_ (List.Pairwise.cons hy hys)
      intro b hb
      rcases List.mem_cons.mp hb with rfl | hb
      · exact hxy
      · exact htrans x y b hxy (hy b hb)
    · rw [if_neg hxy]
      refine List.Pairwise.cons ?_ (ih hys)
      intro b hb
      rcases List.mem_cons.mp ((perm_insertS le x ys).mem_iff.mp hb) with rfl | hb
      · exact htot _ _ (Bool.eq_false_iff.mpr hxy)
      · exact hy b hb

theorem sorted_sortS {α : Type} (le : α → α → Bool)
    (htot : ∀ a b, le a b = false → le b a = true)
    (htrans : ∀ a b c, le a b = true → le b c = true → le a c = true)
    (l : List α) :
    (sortS le l).Pairwise (fun a b => le a b = true) := by
  induction l with
  | nil => simp [sortS]
  | cons x xs ih => exact pairwise_insertS le htot htrans x (sortS le xs) ih

/-! ### Shortlex order on `List Char` (termination measure for the allocator) -/

def lexLtB : List Char → List Char → Bool
  | [], [] => false
  | [], _ :: _ => true
  | _ :: _, [] => false
  | a :: as, b :: bs => if a < b then true else if b < a then false else lexLtB as bs

def shortLtB (x y : List Char) : Bool :=
  decide (x.length < y.length) || (x.length == y.length && lexLtB x y)

theorem lexLtB_irrefl (x : List Char) : lexLtB x x = false := by
  induction x with
  | nil => rfl
  | cons a as ih => simp [lexLtB, ih]

theorem lexLtB_trans {x y z : List Char} (h1 : lexLtB x y = true)
    (h2 : lexLtB y z = true) : lexLtB x z = true := by
  induction x generalizing y z with
  | nil =>
    cases y with
    | nil => simp [lexLtB] at h1
    | cons b bs =>
      cases z with
      | nil => simp [lexLtB] at h2
      | cons c cs => rfl
  | cons a as ih =>
    cases y with
    | nil => simp [lexLtB] at h1
    | cons b bs =>
      cases z with
      | nil => simp [lexLtB] at h2
      | cons c cs =>
        simp only [lexLtB] at h1 h2 ⊢
        by_cases hab : a < b
        · by_cases hbc : b < c
          · have : a < c := lt_trans hab hbc
            simp [this]
          · by_cases hcb : c < b
            · simp [hbc, hcb] at h2
            · have hbc' : b = c := le_antisymm (le_of_not_lt hcb) (le_of_not_lt hbc)
              subst hbc'
              simp [hab]
        · by_cases hba : b < a
          · simp [hab, hba] at h1
          · have hab' : a = b := le_antisymm (le_of_not_lt hba) (le_of_not_lt hab)
            subst hab'
            by_cases hbc : a < c
            · simp [hbc]
            · by_cases hcb : c < a
              · simp [hbc, hcb] at h2
              · have hbc' : a = c := le_antisymm (le_of_not_lt hcb) (le_of_not_lt hbc)
                subst hbc'
                simp [hbc, hcb] at h1 h2 ⊢
                exact ih h1 h2

theorem shortLtB_irrefl (x : List Char) : shortLtB x x = false := by
  simp [shortLtB, lexLtB_irrefl]

theorem shortLtB_trans {x y z : List Char} (h1 : shortLtB x y = true)
    (h2 : shortLtB y z = true) : shortLtB x z = true := by
  simp only [shortLtB, Bool.or_eq_true, Bool.and_eq_true, decide_eq_true_eq,
    beq_iff_eq] at h1 h2 ⊢
  rcases h1 with h1 | ⟨h1e, h1l⟩
  · rcases h2 with h2 | ⟨h2e, _⟩
    · exact Or.inl (lt_trans h1 h2)
    · exact Or.inl (h2e ▸ h1)
  · rcases h2 with h2 | ⟨h2e, h2l⟩
    · exact Or.inl (h1e ▸ h2)
    · exact Or.inr ⟨h1e.trans h2e, lexLtB_trans h1l h2l⟩

/-! ### ID allocator (`generateNextNodeId`, `incrementNodeId`, `incrementSuffix`)

Source: `src/utils.ts` lines 776-820.  Ids are embedded as `List Char`.

`incrementSuffix` walks the suffix from its rightmost character, bumping the
first character below `'z'` and turning trailing `'z'`s into `'a'`s, prepending
a fresh `'a'` if every character was `'z'`.  The walk is modelled by recursion
on the reversed character list.
-/

def incSufAux : List Char → List Char
  | [] => ['a']
  | c :: rest => if c < 'z' then Char.ofNat (c.toNat + 1) :: rest else 'a' :: incSufAux rest

def incrementSuffix (suffix : List Char) : List Char :=
  if suffix.isEmpty then ['a'] else (incSufAux suffix.reverse).reverse

/-- Decides `[a-z]`, the character class of the suffix regex. -/
def isLowerAZ (c : Char) : Bool := 'a' ≤ c && c ≤ 'z'

/-- Model of `incrementNodeId` (`src/utils.ts` 788-795).  The JS regex
`/^(.*)([a-z]+)$/` has a greedy `(.*)`, so `([a-z]+)` captures exactly the last
character whenever that character is a lowercase letter; the match fails
otherwise.  `match[1] || id` falls back to the whole id when the captured base
is the empty string (JS `""` is falsy) or when the match failed. -/
def incrementNodeId (id : List Char) : List Char :=
  match id.getLast? with
  | some c =>
    if isLowerAZ c then
      let base0 := id.dropLast
      let base := if base0.isEmpty then id else base0
      base ++ incrementSuffix [c]
    else id ++ ['a']
  | none => id ++ ['a']

theorem char_lt_succ (c : Char) (h2 : c < 'z') : c < Char.ofNat (c.toNat + 1) := by
  have hnat : c.toNat < 122 := h2
  have hval : (c.toNat + 1).isValidChar := Or.inl (by omega)
  have htn : (Char.ofNat (c.toNat + 1)).toNat = c.toNat + 1 := by
    rw [Char.ofNat, dif_pos hval]
    rfl
  show c.toNat < (Char.ofNat (c.toNat + 1)).toNat
  omega

theorem lexLtB_append_last (p : List Char) {c d : Char} (h : c < d) :
    lexLtB (p ++ [c]) (p ++ [d]) = true := by
  induction p with
  | nil => simp [lexLtB, h]
  | cons a as ih => simp [lexLtB, ih]

theorem shortLtB_of_length_lt {x y : List Char} (h : x.length < y.length) :
    shortLtB x y = true := by
  simp [shortLtB, h]

theorem incrementSuffix_single_lt {c : Char} (h : c < 'z') :
    incrementSuffix [c] = [Char.ofNat (c.toNat + 1)] := by
  simp [incrementSuffix, incSufAux, h]

theorem incrementSuffix_z : incrementSuffix ['z'] = ['a', 'a'] := by decide

/-- Each `incrementNodeId` step strictly increases the id in shortlex order:
the result is either one character longer, or of equal length with a strictly
larger final character. -/
theorem shortLtB_incrementNodeId (id : List Char) :
    shortLtB id (incrementNodeId id) = true := by
  unfold incrementNodeId
  match hL : id.getLast? with
  | none =>
    apply shortLtB_of_length_lt
    simp
  | some c =>
    simp only
    by_cases hlc : isLowerAZ c = true
    · rw [if_pos hlc]
      have hid : id.dropLast ++ [c] = id :=
        List.dropLast_append_getLast? c (Option.mem_def.mpr hL)
      by_cases hb0 : id.dropLast.isEmpty = true
      · rw [if_pos hb0]
        apply shortLtB_of_length_lt
        have : 1 ≤ (incrementSuffix [c]).length := by
          by_cases hcz : c < 'z'
          · rw [incrementSuffix_single_lt hcz]; simp
          · have hcz' : c = 'z' := by
              have h1 : c ≤ 'z' := by
                simp [isLowerAZ] at hlc; exact hlc.2
              exact le_antisymm h1 (le_of_not_lt hcz)
            subst hcz'
            rw [incrementSuffix_z]; simp
        simp only [List.length_append]
        omega
      · rw [if_neg hb0]
        by_cases hcz : c < 'z'
        · rw [incrementSuffix_single_lt hcz]
          have hlen : (id.dropLast ++ [Char.ofNat (c.toNat + 1)]).length = id.length := by
            rw [← hid]; simp
          have hgoal : lexLtB id (id.dropLast ++ [Char.ofNat (c.toNat + 1)]) = true := by
            calc lexLtB id (id.dropLast ++ [Char.ofNat (c.toNat + 1)])
                = lexLtB (id.dropLast ++ [c]) (id.dropLast ++ [Char.ofNat (c.toNat + 1)]) := by
                  rw [hid]
              _ = true := lexLtB_append_last _ (char_lt_succ c hcz)
          simp [shortLtB, hlen, hgoal]
        · have hcz' : c = 'z' := by
            have h1 : c ≤ 'z' := by
              simp [isLowerAZ] at hlc; exact hlc.2
            exact le_antisymm h1 (le_of_not_lt hcz)
          subst hcz'
          rw [incrementSuffix_z]
          apply shortLtB_of_length_lt
          have : id.dropLast.length + 1 = id.length := by
            conv_rhs => rw [← hid]
            simp
          simp only [List.length_append, List.length_cons, List.length_nil]
          omega
    · rw [if_neg hlc]
      apply shortLtB_of_length_lt
      simp

theorem nextFreeId_measure_decreases (existingIds : List (List Char))
    (candidate : List Char) (hmem : candidate ∈ existingIds) :
    (existingIds.filter (fun x => !shortLtB x (incrementNodeId candidate))).length <
      (existingIds.filter (fun x => !shortLtB x candidate)).length := by
  have hinc := shortLtB_incrementNodeId candidate
  have hstep : existingIds.filter (fun x => !shortLtB x (incrementNodeId candidate)) =
      (existingIds.filter (fun x => !shortLtB x candidate)).filter
        (fun x => !shortLtB x (incrementNodeId candidate)) := by
    rw [List.filter_filter]
    apply List.filter_congr
    intro x _
    cases hx : shortLtB x (incrementNodeId candidate) with
    | true => simp
    | false =>
      simp only [Bool.not_false, Bool.true_and]
      cases hxc : shortLtB x candidate with
      | false => simp
      | true =>
        have := shortLtB_trans hxc hinc
        rw [this] at hx
        cases hx
  rw [hstep]
  apply List.length_filter_lt_length_iff_exists.mpr
  refine ⟨candidate, ?_, ?_⟩
  · apply List.mem_filter.mpr
    exact ⟨hmem, by simp [shortLtB_irrefl]⟩
  · simp [hinc]

/-- The `while (existingIds.has(candidate))` loop of `generateNextNodeId`.
Terminates because each step strictly increases the candidate in shortlex
order, so the number of in-use ids not below the candidate strictly shrinks. -/
def nextFreeId (existingIds : List (List Char)) (candidate : List Char) : List Char :=
  if candidate ∈ existingIds then nextFreeId existingIds (incrementNodeId candidate)
  else candidate
termination_by (existingIds.filter (fun x => !shortLtB x candidate)).length
decreasing_by
  exact nextFreeId_measure_decreases _ _ (by assumption)

/-- Model of `generateNextNodeId` (`src/utils.ts` 776-782). -/
def generateNextNodeId (baseId : List Char) (existingIds : List (List Char)) : List Char :=
  nextFreeId existingIds (incrementNodeId baseId)

theorem nextFreeId_not_mem_aux (existingIds : List (List Char)) :
    ∀ (n : Nat) (candidate : List Char),
      (existingIds.filter (fun x => !shortLtB x candidate)).length ≤ n →
      nextFreeId existingIds candidate ∉ existingIds := by
  intro n
  induction n with
  | zero =>
    intro candidate hle
    rw [nextFreeId]
    by_cases h : candidate ∈ existingIds
    · exact absurd (Nat.lt_of_lt_of_le (Nat.lt_of_lt_of_le
        (nextFreeId_measure_decreases existingIds candidate h) hle) (Nat.le_refl 0))
        (Nat.not_lt_zero _)
    · rw [if_neg h]; exact h
  | succ n ih =>
    intro candidate hle
    rw [nextFreeId]
    by_cases h : candidate ∈ existingIds
    · rw [if_pos h]
      exact ih (incrementNodeId candidate)
        (Nat.le_of_lt_succ (Nat.lt_of_lt_of_le
          (nextFreeId_measure_decreases existingIds candidate h) hle))
    · rw [if_neg h]; exact h

theorem nextFreeId_not_mem (existingIds : List (List Char)) (candidate : List Char) :
    nextFreeId existingIds candidate ∉ existingIds :=
  nextFreeId_not_mem_aux existingIds _ candidate (Nat.le_refl _)

/-- **C5.**  For every seed and every finite in-use set, `generateNextNodeId`
terminates (it is a total function, by the strict shortlex increase of each
increment step) and returns an id not in the in-use set; and a second call with
the first result added to the in-use set returns a different id. -/
theorem c5_generateNextNodeId_fresh (seed : List Char) (inUse : List (List Char)) :
    generateNextNodeId seed inUse ∉ inUse ∧
      generateNextNodeId seed (generateNextNodeId seed inUse :: inUse) ≠
        generateNextNodeId seed inUse := by
  constructor
  · exact nextFreeId_not_mem inUse (incrementNodeId seed)
  · intro h
    have hnm := nextFreeId_not_mem (generateNextNodeId seed inUse :: inUse)
      (incrementNodeId seed)
    apply hnm
    show generateNextNodeId seed (generateNextNodeId seed inUse :: inUse) ∈ _
    rw [h]
    exact List.mem_cons_self _ _

/-- **C6.**  The claim says candidates are computed by splitting off the entire
trailing run of lowercase letters, so that seed `"1az"` would yield first
candidate `"1ba"`.  In the code, the greedy `(.*)` in `/^(.*)([a-z]+)$/` makes
the captured suffix a single character, so `"1az"` splits as `("1a", "z")` and
the first candidate is `"1aaa"`, not `"1ba"`.  (The standalone `incrementSuffix`
does satisfy the claim's table, e.g. `"az" → "ba"`; it is the splitting that
deviates.)  This theorem evaluates the embedding at the failing input. -/
theorem c6_incrementNodeId_single_char_suffix :
    incrementNodeId ['1', 'a', 'z'] = ['1', 'a', 'a', 'a'] ∧
      generateNextNodeId ['1', 'a', 'z'] [] = ['1', 'a', 'a', 'a'] ∧
      incrementSuffix ['a', 'z'] = ['b', 'a'] ∧
      ['1', 'a', 'a', 'a'] ≠ ['1', 'b', 'a'] := by
  refine ⟨by decide, ?_, by decide, by decide⟩
  rw [generateNextNodeId, nextFreeId]
  decide

/-! ### Association-list helpers (model of JS `Map` and keyed object graphs) -/

def alistLookup {β : Type} (m : List (String × β)) (k : String) : Option β :=
  (m.find? (fun e => e.1 == k)).map Prod.snd

def alistUpsert {β : Type} (m : List (String × β)) (k : String) (v : β) :
    List (String × β) :=
  match m with
  | [] => [(k, v)]
  | (k', v') :: rest => if k' == k then (k, v) :: rest else (k', v') :: alistUpsert rest k v

def alistAdjust {β : Type} (m : List (String × β)) (k : String) (f : β → β) :
    List (String × β) :=
  match m with
  | [] => []
  | (k', v') :: rest => if k' == k then (k', f v') :: rest else (k', v') :: alistAdjust rest k f

/-! ### Tree data model (`src/types.ts`, second revision, and part_003 first revision)

`TreeNodeE` is the entry stored in the `nodesById` map.  The JS `TreeNode`
objects form a graph through mutable `children` arrays of object references;
since the map is keyed by id and every reference pushed into a `children` array
is a value of that map, children are represented by their ids. -/

structure NodeSyntaxData where
  id : String
  parentId : String
  label : String
  fromPos : Nat
  toPos : Nat
  paragraphStart : Option Nat := none
  paragraphEnd : Option Nat := none
deriving DecidableEq

structure NodeCollection where
  nodes : List NodeSyntaxData
  paragraphStart : Option Nat := none
  paragraphEnd : Option Nat := none
deriving DecidableEq

structure TreeNodeE where
  id : String
  parentId : Option String
  label : String
  children : List String
  position : Nat
  isStandalone : Bool
deriving DecidableEq

abbrev NodeMap := List (String × TreeNodeE)

def childrenOf (m : NodeMap) (x : String) : List String :=
  ((alistLookup m x).map TreeNodeE.children).getD []

def posOf (m : NodeMap) (x : String) : Nat :=
  ((alistLookup m x).map TreeNodeE.position).getD 0

def standaloneOf (m : NodeMap) (x : String) : Bool :=
  ((alistLookup m x).map TreeNodeE.isStandalone).getD false

/-! ### `buildTree` (`src/unnamed/part_003` lines 50-188, first revision) -/

/-- First pass of `buildTree`: create one `TreeNode` per record, keyed by id;
a later record with the same id overwrites the earlier entry. -/
def firstPass (nodes : List NodeSyntaxData) : NodeMap :=
  nodes.foldl (fun m n => alistUpsert m n.id
    { id := n.id
      parentId := if n.parentId == "root" then none else some n.parentId
      label := n.label
      children := []
      position := n.fromPos
      isStandalone := true }) []

structure BuildState where
  nodesById : NodeMap
  rootIds : List String
  processed : List (String × String)
  nodeHasParent : List String
  nodeHasChildren : List String
deriving DecidableEq

/-- Second pass of `buildTree`, one record: attach to the parent, or push the
node to the root list when the parent is `"root"`/empty, the reverse
relationship was already processed (two-node-cycle guard), the node names
itself, or the named parent is absent. -/
def buildStep (s : BuildState) (n : NodeSyntaxData) : BuildState :=
  match alistLookup s.nodesById n.id with
  | none => s
  | some _ =>
    if n.parentId == "root" || n.parentId == "" then
      { s with rootIds := s.rootIds ++ [n.id] }
    else
      match alistLookup s.nodesById n.parentId with
      | some _ =>
        if (n.parentId, n.id) ∈ s.processed then
          { s with rootIds := s.rootIds ++ [n.id] }
        else if n.id == n.parentId then
          { s with rootIds := s.rootIds ++ [n.id] }
        else
          { s with
            processed := s.processed ++ [(n.id, n.parentId)]
            nodesById := alistAdjust (alistAdjust s.nodesById n.parentId
                (fun e => { e with children := e.children ++ [n.id], isStandalone := false }))
              n.id (fun e => { e with isStandalone := false })
            nodeHasParent := s.nodeHasParent ++ [n.id]
            nodeHasChildren := s.nodeHasChildren ++ [n.parentId] }
      | none => { s with rootIds := s.rootIds ++ [n.id] }

/-- Third pass: recompute `isStandalone` for every entry from the
`nodeHasParent`/`nodeHasChildren` sets and clear the children of standalone
nodes (the standalone condition is spelled twice so the entry update is a
single anonymous-constructor application). -/
def standalonePass (s : BuildState) : BuildState :=
  { s with nodesById := s.nodesById.map (fun e =>
      (e.1, { e.2 with
        isStandalone :=
          !(s.nodeHasParent.contains e.1) && !(s.nodeHasChildren.contains e.1)
        children :=
          if !(s.nodeHasParent.contains e.1) && !(s.nodeHasChildren.contains e.1)
          then [] else e.2.children })) }

/-- Root-sort comparator of `buildTree` as a boolean `≤` (the JS comparator
returns `1` when `a` is standalone and `b` is not, `-1` in the opposite case,
and `a.position - b.position` otherwise). -/
def rootLE (m : NodeMap) (a b : String) : Bool :=
  if standaloneOf m a && !standaloneOf m b then false
  else if !standaloneOf m a && standaloneOf m b then true
  else posOf m a ≤ posOf m b

structure TreeDataM where
  rootId : String
  position : Nat
  paragraphStart : Option Nat
  paragraphEnd : Option Nat
  isStandaloneTree : Bool
deriving DecidableEq

structure BuildResult where
  trees : List TreeDataM
  nodesById : NodeMap
  rootIds : List String
  processed : List (String × String)
  nodeHasParent : List String
  nodeHasChildren : List String
deriving DecidableEq

/-- `buildTree`, staged: the sorted record list. -/
def buildSorted (c : NodeCollection) : List NodeSyntaxData :=
  sortS (fun a b => a.fromPos ≤ b.fromPos) c.nodes

/-- `buildTree`, staged: the state after the second (attachment) pass. -/
def buildState2 (c : NodeCollection) : BuildState :=
  (buildSorted c).foldl buildStep ⟨firstPass (buildSorted c), [], [], [], []⟩

/-- `buildTree`, staged: the state after the standalone pass. -/
def buildState3 (c : NodeCollection) : BuildState :=
  standalonePass (buildState2 c)

/-- `buildTree`, staged: the sorted root-id list. -/
def buildRoots (c : NodeCollection) : List String :=
  sortS (rootLE (buildState3 c).nodesById) (buildState3 c).rootIds

def buildTree (c : NodeCollection) : BuildResult :=
  { trees := (buildRoots c).map (fun r =>
      { rootId := r
        position := posOf (buildState3 c).nodesById r
        paragraphStart := c.paragraphStart
        paragraphEnd := c.paragraphEnd
        isStandaloneTree := standaloneOf (buildState3 c).nodesById r })
    nodesById := (buildState3 c).nodesById
    rootIds := buildRoots c
    processed := (buildState3 c).processed
    nodeHasParent := (buildState3 c).nodeHasParent
    nodeHasChildren := (buildState3 c).nodeHasChildren }

/-- One node of a tree steps to each entry of its `children` array. -/
def StepRel (m : NodeMap) (a b : String) : Prop := b ∈ childrenOf m a

/-! ### `groupNodesByParagraph` (`src/unnamed/part_003` lines 194-256, first revision)

The JS groups by the template string `` `${paragraphStart}-${paragraphEnd}` ``,
which is injective on pairs of naturals, so the key is modelled as the pair.
The guard `!node.paragraphStart || !node.paragraphEnd` is JS falsiness:
it holds for `undefined` and for `0` alike, modelled by `getD 0 == 0`. -/

def paraFalsy (n : NodeSyntaxData) : Bool :=
  (n.paragraphStart.getD 0 == 0) || (n.paragraphEnd.getD 0 == 0)

def groupUpsert (m : List ((Nat × Nat) × List NodeSyntaxData)) (k : Nat × Nat)
    (n : NodeSyntaxData) : List ((Nat × Nat) × List NodeSyntaxData) :=
  match m with
  | [] => [(k, [n])]
  | (k', vs) :: rest =>
    if k' == k then (k', vs ++ [n]) :: rest else (k', vs) :: groupUpsert rest k n

/-- One step of the single traversal of `groupNodesByParagraph`: a node with a
falsy bound is pushed onto the fallback list, the rest join the `Map` bucket of
their `(paragraphStart, paragraphEnd)` key (buckets in first-occurrence
order). -/
def paraStep (st : List ((Nat × Nat) × List NodeSyntaxData) × List NodeSyntaxData)
    (n : NodeSyntaxData) :
    List ((Nat × Nat) × List NodeSyntaxData) × List NodeSyntaxData :=
  if paraFalsy n then (st.1, st.2 ++ [n])
  else (groupUpsert st.1 (n.paragraphStart.getD 0, n.paragraphEnd.getD 0) n, st.2)

def paraFold (nodes : List NodeSyntaxData) :
    List ((Nat × Nat) × List NodeSyntaxData) × List NodeSyntaxData :=
  nodes.foldl paraStep ([], [])

/-- A `Map` bucket becomes a collection whose bounds are read off the first
node of the bucket (`paragraphNodes[0]`); empty buckets are skipped by the
`length > 0` guard. -/
def groupColl (g : (Nat × Nat) × List NodeSyntaxData) : Option NodeCollection :=
  if g.2.isEmpty then none
  else some { nodes := g.2
              paragraphStart := g.2.head?.bind NodeSyntaxData.paragraphStart
              paragraphEnd := g.2.head?.bind NodeSyntaxData.paragraphEnd }

/-- The fallback collection: bounds are `Math.min` over the members' `from`
and `Math.max` over their `to` (only built for a nonempty member list). -/
def fallbackColl (noPara : List NodeSyntaxData) : NodeCollection :=
  { nodes := noPara
    paragraphStart := some ((noPara.map NodeSyntaxData.fromPos).min?.getD 0)
    paragraphEnd := some ((noPara.map NodeSyntaxData.toPos).max?.getD 0) }

def groupNodesByParagraph (nodes : List NodeSyntaxData) : List NodeCollection :=
  let st := paraFold nodes
  let collections := st.1.filterMap groupColl
  if st.2.isEmpty then collections
  else collections ++ [fallbackColl st.2]

/-! ### `sortTreesByPosition` / `sortTreeNodeChildren`
(`src/unnamed/part_003` lines 331-368, first revision)

`sortTreeNodeChildren` recurses through the (possibly cyclic) children graph
with a visited set.  In JS the shared `Set` is restored before each call
returns (`visited.delete(node.id)`), so it always equals the set of ids on the
current recursion path; the model passes that path downward.  The recursion is
not structural, so the model takes fuel; `sortTreesByPosition` supplies fuel
`m.length + 2`, which the sufficiency lemma below shows is never exhausted. -/

def sortTreeNodeChildrenF : Nat → NodeMap → List String → String → Option NodeMap
  | 0, _, _, _ => none
  | fuel+1, m, visited, id =>
    let cs := childrenOf m id
    if cs.isEmpty then some m
    else if visited.contains id then some m
    else
      let sorted := sortS (fun a b => posOf m a ≤ posOf m b) cs
      let m1 := alistAdjust m id (fun e => { e with children := sorted })
      sorted.foldlM (fun acc c => sortTreeNodeChildrenF fuel acc (id :: visited) c) m1

def sortTreesByPosition (r : BuildResult) : Option BuildResult :=
  let sortedTrees := sortS (fun a b => a.position ≤ b.position) r.trees
  match sortedTrees.foldlM
      (fun m t => sortTreeNodeChildrenF (m.length + 2) m [] t.rootId) r.nodesById with
  | some m => some { r with trees := sortedTrees, nodesById := m }
  | none => none

/-! ### C1: the no-drop invariant fails on a three-node parent cycle -/

/-- Scope collection with pairwise-distinct ids whose parent links form the
3-cycle A→B→C→A. -/
def cyc3 : NodeCollection := { nodes := [
  { id := "A", parentId := "B", label := "", fromPos := 0, toPos := 1 },
  { id := "B", parentId := "C", label := "", fromPos := 1, toPos := 2 },
  { id := "C", parentId := "A", label := "", fromPos := 2, toPos := 3 }] }

/-- **C1.**  On the 3-cycle every record attaches to its named parent (the
pairwise guard only sees 2-cycles), so no node is ever pushed to the root
list and `buildTree` returns the empty forest: all three records are dropped,
violating the claimed no-drop invariant.  This theorem evaluates the embedding
at that failing input. -/
theorem c1_three_cycle_drops_all_records :
    (buildTree cyc3).trees = [] ∧ cyc3.nodes.length = 3 := by decide

theorem paraFold_snd_aux (nodes : List NodeSyntaxData) :
    ∀ st, (nodes.foldl paraStep st).2 = st.2 ++ nodes.filter paraFalsy := by
  induction nodes with
  | nil => intro st; simp
  | cons n rest ih =>
    intro st
    rw [List.foldl_cons, ih]
    by_cases h : paraFalsy n
    · simp [paraStep, h]
    · simp [paraStep, h]

theorem paraFold_snd (nodes : List NodeSyntaxData) :
    (paraFold nodes).2 = nodes.filter paraFalsy := by
  simpa using paraFold_snd_aux nodes ([], [])

/-- Every bucket of the paragraph `Map` is nonempty and its members carry
exactly the bucket's key as their (non-falsy) paragraph bounds. -/
def ParaInv (m : List ((Nat × Nat) × List NodeSyntaxData)) : Prop :=
  ∀ e ∈ m, e.2 ≠ [] ∧ ∀ x ∈ e.2, paraFalsy x = false ∧
    x.paragraphStart = some e.1.1 ∧ x.paragraphEnd = some e.1.2

theorem paraFalsy_false_bounds {n : NodeSyntaxData} (h : paraFalsy n = false) :
    n.paragraphStart = some (n.paragraphStart.getD 0) ∧
      n.paragraphEnd = some (n.paragraphEnd.getD 0) := by
  simp only [paraFalsy, Bool.or_eq_false_iff, beq_eq_false_iff_ne, ne_eq] at h
  constructor
  · cases hps : n.paragraphStart with
    | none => rw [hps] at h; simp at h
    | some s => simp [hps]
  · cases hpe : n.paragraphEnd with
    | none => rw [hpe] at h; simp at h
    | some s => simp [hpe]

theorem groupUpsert_inv_aux (n : NodeSyntaxData) (hn : paraFalsy n = false) :
    ∀ m : List ((Nat × Nat) × List NodeSyntaxData), ParaInv m →
      ParaInv (groupUpsert m (n.paragraphStart.getD 0, n.paragraphEnd.getD 0) n) := by
  obtain ⟨hps, hpe⟩ := paraFalsy_false_bounds hn
  intro m
  induction m with
  | nil =>
    intro _ e he
    simp only [groupUpsert, List.mem_singleton] at he
    subst he
    refine ⟨by simp, ?_⟩
    intro x hx
    simp only [List.mem_singleton] at hx
    subst hx
    exact ⟨hn, hps, hpe⟩
  | cons hd tl ih =>
    obtain ⟨k', vs⟩ := hd
    intro hinv e he
    simp only [groupUpsert] at he
    by_cases hk : (k' == (n.paragraphStart.getD 0, n.paragraphEnd.getD 0)) = true
    · rw [if_pos hk] at he
      rcases List.mem_cons.mp he with rfl | he
      · have hk' : k' = (n.paragraphStart.getD 0, n.paragraphEnd.getD 0) :=
          beq_iff_eq.mp hk
        have hold := hinv (k', vs) (List.mem_cons_self _ _)
        refine ⟨by simp, ?_⟩
        intro x hx
        rcases List.mem_append.mp hx with hx | hx
        · exact hold.2 x hx
        · simp only [List.mem_singleton] at hx
          subst hx
          rw [hk']
          exact ⟨hn, hps, hpe⟩
      · exact hinv e (List.mem_cons_of_mem _ he)
    · rw [if_neg hk] at he
      rcases List.mem_cons.mp he with rfl | he
      · exact hinv _ (List.mem_cons_self _ _)
      · exact ih (fun e' he' => hinv e' (List.mem_cons_of_mem _ he')) e he

theorem groupUpsert_inv {m : List ((Nat × Nat) × List NodeSyntaxData)}
    {n : NodeSyntaxData} (hinv : ParaInv m) (hn : paraFalsy n = false) :
    ParaInv (groupUpsert m (n.paragraphStart.getD 0, n.paragraphEnd.getD 0) n) :=
  groupUpsert_inv_aux n hn m hinv

theorem groupUpsert_mem_self (m : List ((Nat × Nat) × List NodeSyntaxData))
    (k : Nat × Nat) (n : NodeSyntaxData) :
    ∃ e ∈ groupUpsert m k n, n ∈ e.2 := by
  induction m with
  | nil => exact ⟨(k, [n]), by simp [groupUpsert]⟩
  | cons hd tl ih =>
    obtain ⟨k', vs⟩ := hd
    by_cases hk : (k' == k) = true
    · exact ⟨(k', vs ++ [n]), by simp [groupUpsert, hk]⟩
    · obtain ⟨e, he, hne⟩ := ih
      exact ⟨e, by simp [groupUpsert, hk, he], hne⟩

theorem groupUpsert_mem_mono (m : List ((Nat × Nat) × List NodeSyntaxData))
    (k : Nat × Nat) (n x : NodeSyntaxData) (h : ∃ e ∈ m, x ∈ e.2) :
    ∃ e ∈ groupUpsert m k n, x ∈ e.2 := by
  induction m with
  | nil => simp at h
  | cons hd tl ih =>
    obtain ⟨k', vs⟩ := hd
    obtain ⟨e, he, hxe⟩ := h
    by_cases hk : (k' == k) = true
    · rcases List.mem_cons.mp he with rfl | he
      · exact ⟨(k', vs ++ [n]), by simp [groupUpsert, hk],
          List.mem_append_left _ hxe⟩
      · exact ⟨e, by simp [groupUpsert, hk, he], hxe⟩
    · rcases List.mem_cons.mp he with rfl | he
      · exact ⟨(k', vs), by simp [groupUpsert, hk], hxe⟩
      · obtain ⟨e', he', hxe'⟩ := ih ⟨e, he, hxe⟩
        exact ⟨e', by simp [groupUpsert, hk, he'], hxe'⟩

theorem paraFold_groups_mono (nodes : List NodeSyntaxData) :
    ∀ st (x : NodeSyntaxData), (∃ e ∈ st.1, x ∈ e.2) →
      ∃ e ∈ (nodes.foldl paraStep st).1, x ∈ e.2 := by
  induction nodes with
  | nil => intro st x h; exact h
  | cons n rest ih =>
    intro st x h
    rw [List.foldl_cons]
    apply ih
    by_cases hf : paraFalsy n
    · simpa [paraStep, hf] using h
    · simp only [paraStep, hf]
      exact groupUpsert_mem_mono _ _ _ _ h

theorem paraFold_mem_groups (nodes : List NodeSyntaxData) :
    ∀ st (n : NodeSyntaxData), n ∈ nodes → paraFalsy n = false →
      ∃ e ∈ (nodes.foldl paraStep st).1, n ∈ e.2 := by
  induction nodes with
  | nil => intro st n h; simp at h
  | cons m rest ih =>
    intro st n hmem hnf
    rw [List.foldl_cons]
    rcases List.mem_cons.mp hmem with rfl | hmem
    · apply paraFold_groups_mono
      simp only [paraStep, hnf]
      simp only [Bool.false_eq_true, if_false]
      exact groupUpsert_mem_self _ _ _
    · exact ih _ n hmem hnf

theorem paraFold_inv (nodes : List NodeSyntaxData) :
    ∀ st, ParaInv st.1 → ParaInv (nodes.foldl paraStep st).1 := by
  induction nodes with
  | nil => intro st h; exact h
  | cons n rest ih =>
    intro st h
    rw [List.foldl_cons]
    apply ih
    by_cases hf : paraFalsy n
    · simpa [paraStep, hf] using h
    · simp only [paraStep, hf, Bool.false_eq_true, if_false]
      exact groupUpsert_inv h (by simpa using hf)

theorem groupNodes_collections_mem (nodes : List NodeSyntaxData)
    {e : (Nat × Nat) × List NodeSyntaxData} (he : e ∈ (paraFold nodes).1)
    (hne : e.2 ≠ []) {c : NodeCollection} (hc : groupColl e = some c) :
    c ∈ groupNodesByParagraph nodes := by
  unfold groupNodesByParagraph
  simp only
  have hmem : c ∈ (paraFold nodes).1.filterMap groupColl :=
    List.mem_filterMap.mpr ⟨e, he, hc⟩
  by_cases h2 : (paraFold nodes).2.isEmpty
  · rw [if_pos h2]; exact hmem
  · rw [if_neg h2]; exact List.mem_append_left _ hmem

theorem c10_part1 (nodes : List NodeSyntaxData) :
    ∀ n ∈ nodes, paraFalsy n = false →
      ∃ c ∈ groupNodesByParagraph nodes, n ∈ c.nodes ∧
        c.paragraphStart = n.paragraphStart ∧ c.paragraphEnd = n.paragraphEnd ∧
        ∀ x ∈ c.nodes, x.paragraphStart = n.paragraphStart ∧
          x.paragraphEnd = n.paragraphEnd := by
  intro n hn hnf
  have hinv : ParaInv (paraFold nodes).1 :=
    paraFold_inv nodes ([], []) (by intro e he; simp at he)
  obtain ⟨e, he, hne⟩ := paraFold_mem_groups nodes ([], []) n hn hnf
  obtain ⟨hnonempty, hall⟩ := hinv e he
  obtain ⟨hps, hpe⟩ := (hall n hne).2
  obtain ⟨y, hy⟩ : ∃ y, e.2.head? = some y := by
    cases hcs : e.2 with
    | nil => exact absurd hcs hnonempty
    | cons a l => exact ⟨a, by simp⟩
  have hymem : y ∈ e.2 := List.mem_of_mem_head? (by rw [hy]; rfl)
  obtain ⟨hyps, hype⟩ := (hall y hymem).2
  have hcoll : groupColl e = some
      { nodes := e.2
        paragraphStart := e.2.head?.bind NodeSyntaxData.paragraphStart
        paragraphEnd := e.2.head?.bind NodeSyntaxData.paragraphEnd } := by
    unfold groupColl
    rw [if_neg (by simpa [List.isEmpty_iff] using hnonempty)]
  refine ⟨_, groupNodes_collections_mem nodes he hnonempty hcoll, hne, ?_, ?_, ?_⟩
  · simp only [hy, Option.bind_eq_bind, Option.some_bind]
    rw [hyps, hps]
  · simp only [hy, Option.bind_eq_bind, Option.some_bind]
    rw [hype, hpe]
  · intro x hx
    obtain ⟨hxps, hxpe⟩ := (hall x hx).2
    rw [hxps, hxpe, hps, hpe]
    exact ⟨rfl, rfl⟩

theorem c10_part2 (nodes : List NodeSyntaxData) :
    ∀ n ∈ nodes, paraFalsy n = true →
      n ∈ nodes.filter paraFalsy ∧
      (groupNodesByParagraph nodes).getLast? =
        some (fallbackColl (nodes.filter paraFalsy)) := by
  intro n hn hnf
  have hmemf : n ∈ nodes.filter paraFalsy := List.mem_filter.mpr ⟨hn, hnf⟩
  refine ⟨hmemf, ?_⟩
  have hsnd : (paraFold nodes).2 = nodes.filter paraFalsy := paraFold_snd nodes
  have hne : ¬(paraFold nodes).2.isEmpty = true := by
    rw [hsnd]
    simp only [List.isEmpty_iff]
    intro hcontra
    rw [hcontra] at hmemf
    simp at hmemf
  unfold groupNodesByParagraph
  simp only
  rw [if_neg hne, hsnd, List.getLast?_concat]

theorem c10_part3 (nodes : List NodeSyntaxData) :
    ∀ c ∈ groupNodesByParagraph nodes, ∀ n ∈ c.nodes, paraFalsy n = true →
      (groupNodesByParagraph nodes).getLast? = some c := by
  intro c hc n hnc hnf
  have hinv : ParaInv (paraFold nodes).1 :=
    paraFold_inv nodes ([], []) (by intro e he; simp at he)
  have hgroup : ∀ c' ∈ (paraFold nodes).1.filterMap groupColl,
      ∀ x ∈ c'.nodes, paraFalsy x = false := by
    intro c' hc' x hx
    obtain ⟨e, he, hce⟩ := List.mem_filterMap.mp hc'
    unfold groupColl at hce
    by_cases hee : e.2.isEmpty
    · rw [if_pos hee] at hce; cases hce
    · rw [if_neg hee] at hce
      obtain rfl := Option.some_injective _ hce
      exact ((hinv e he).2 x hx).1
  unfold groupNodesByParagraph at hc ⊢
  simp only at hc ⊢
  by_cases h2 : (paraFold nodes).2.isEmpty
  · rw [if_pos h2] at hc
    rw [hgroup c hc n hnc] at hnf
    cases hnf
  · rw [if_neg h2] at hc ⊢
    rcases List.mem_append.mp hc with hc | hc
    · rw [hgroup c hc n hnc] at hnf
      cases hnf
    · simp only [List.mem_singleton] at hc
      subst hc
      rw [List.getLast?_concat]

/-- **C10.**  `groupNodesByParagraph` keys a record by its exact
`(paragraphStart, paragraphEnd)` pair only when both bounds are present and
non-zero (the JS guard `!node.paragraphStart || !node.paragraphEnd` treats `0`
exactly like a missing bound): (1) every record with non-falsy bounds lands in
a collection whose bounds equal the record's own pair, shared by all members;
(2) every record either of whose bounds is `0` or missing is routed to the
single fallback collection — the last collection of the output — whose bounds
are the minimum `from` and maximum `to` over its members; (3) no collection
other than that fallback contains such a record. -/
theorem c10_groupNodesByParagraph_zero_bound_fallback (nodes : List NodeSyntaxData) :
    (∀ n ∈ nodes, paraFalsy n = false →
      ∃ c ∈ groupNodesByParagraph nodes, n ∈ c.nodes ∧
        c.paragraphStart = n.paragraphStart ∧ c.paragraphEnd = n.paragraphEnd ∧
        ∀ x ∈ c.nodes, x.paragraphStart = n.paragraphStart ∧
          x.paragraphEnd = n.paragraphEnd) ∧
    (∀ n ∈ nodes, paraFalsy n = true →
      n ∈ nodes.filter paraFalsy ∧
      (groupNodesByParagraph nodes).getLast? =
        some (fallbackColl (nodes.filter paraFalsy))) ∧
    (∀ c ∈ groupNodesByParagraph nodes, ∀ n ∈ c.nodes, paraFalsy n = true →
      (groupNodesByParagraph nodes).getLast? = some c) :=
  ⟨c10_part1 nodes, c10_part2 nodes, c10_part3 nodes⟩

def w10a : NodeSyntaxData :=
  { id := "a", parentId := "root", label := "", fromPos := 5, toPos := 9
    paragraphStart := some 1, paragraphEnd := some 2 }

def w10b : NodeSyntaxData :=
  { id := "b", parentId := "root", label := "", fromPos := 1, toPos := 3
    paragraphStart := some 0, paragraphEnd := some 2 }

def w10nodes : List NodeSyntaxData := [w10a, w10b]

/-- Witness for C10: a record with `paragraphStart = 0` goes to the fallback
collection while a record with both bounds non-zero is grouped by its pair. -/
theorem c10_witness :
    (∃ c ∈ groupNodesByParagraph w10nodes, w10a ∈ c.nodes ∧
        c.paragraphStart = w10a.paragraphStart ∧
        c.paragraphEnd = w10a.paragraphEnd ∧
        ∀ x ∈ c.nodes, x.paragraphStart = w10a.paragraphStart ∧
          x.paragraphEnd = w10a.paragraphEnd) ∧
      (w10b ∈ w10nodes.filter paraFalsy ∧
        (groupNodesByParagraph w10nodes).getLast? =
          some (fallbackColl (w10nodes.filter paraFalsy))) :=
  ⟨(c10_groupNodesByParagraph_zero_bound_fallback w10nodes).1 w10a (by decide) (by decide),
   (c10_groupNodesByParagraph_zero_bound_fallback w10nodes).2.1 w10b (by decide) (by decide)⟩

/-! ### Association-list lemmas -/

theorem alistLookup_adjust_eq {β : Type} (m : List (String × β)) (k : String)
    (f : β → β) : alistLookup (alistAdjust m k f) k = (alistLookup m k).map f := by
  induction m with
  | nil => simp [alistAdjust, alistLookup]
  | cons hd tl ih =>
    obtain ⟨k', v⟩ := hd
    by_cases hk : (k' == k) = true
    · simp [alistAdjust, alistLookup, hk]
    · have hk' : (k' == k) = false := by simpa using hk
      simp only [alistAdjust, hk', Bool.false_eq_true, if_false]
      simp only [alistLookup, List.find?_cons, hk'] at ih ⊢
      exact ih

theorem alistLookup_adjust_ne {β : Type} (m : List (String × β)) (k k' : String)
    (f : β → β) (h : k' ≠ k) :
    alistLookup (alistAdjust m k f) k' = alistLookup m k' := by
  induction m with
  | nil => simp [alistAdjust]
  | cons hd tl ih =>
    obtain ⟨k0, v⟩ := hd
    by_cases hk : (k0 == k) = true
    · have hk0 : k0 = k := beq_iff_eq.mp hk
      subst hk0
      simp only [alistAdjust, beq_self_eq_true, if_pos]
      have hne : (k0 == k') = false := by simpa using (Ne.symm h)
      simp only [alistLookup, List.find?_cons, hne]
    · have hk' : (k0 == k) = false := by simpa using hk
      simp only [alistAdjust, hk', Bool.false_eq_true, if_false]
      simp only [alistLookup, List.find?_cons] at ih ⊢
      by_cases he : (k0 == k') = true
      · simp only [he]
      · have he' : (k0 == k') = false := by simpa using he
        simp only [he']
        exact ih

theorem alistAdjust_keys {β : Type} (m : List (String × β)) (k : String)
    (f : β → β) : (alistAdjust m k f).map Prod.fst = m.map Prod.fst := by
  induction m with
  | nil => rfl
  | cons hd tl ih =>
    obtain ⟨k', v⟩ := hd
    by_cases hk : (k' == k) = true
    · have : k' = k := beq_iff_eq.mp hk
      subst this
      simp [alistAdjust]
    · simp [alistAdjust, hk, ih]

theorem alistLookup_isSome_adjust {β : Type} (m : List (String × β)) (k k' : String)
    (f : β → β) :
    (alistLookup (alistAdjust m k f) k').isSome = (alistLookup m k').isSome := by
  by_cases h : k' = k
  · subst h; rw [alistLookup_adjust_eq]; simp
  · rw [alistLookup_adjust_ne _ _ _ _ h]

theorem childrenOf_adjust_ne (m : NodeMap) (k x : String) (f : TreeNodeE → TreeNodeE)
    (h : x ≠ k) : childrenOf (alistAdjust m k f) x = childrenOf m x := by
  unfold childrenOf
  rw [alistLookup_adjust_ne _ _ _ _ h]

theorem childrenOf_adjust_keep (m : NodeMap) (k x : String) (f : TreeNodeE → TreeNodeE)
    (hf : ∀ e, (f e).children = e.children) :
    childrenOf (alistAdjust m k f) x = childrenOf m x := by
  by_cases h : x = k
  · subst h
    unfold childrenOf
    rw [alistLookup_adjust_eq]
    cases alistLookup m x with
    | none => rfl
    | some e => simp [hf]
  · exact childrenOf_adjust_ne m k x f h

theorem childrenOf_adjust_self (m : NodeMap) (k : String) (f : TreeNodeE → TreeNodeE)
    {e : TreeNodeE} (he : alistLookup m k = some e) :
    childrenOf (alistAdjust m k f) k = (f e).children := by
  unfold childrenOf
  rw [alistLookup_adjust_eq, he]
  rfl

theorem posOf_adjust_keep (m : NodeMap) (k x : String) (f : TreeNodeE → TreeNodeE)
    (hf : ∀ e, (f e).position = e.position) :
    posOf (alistAdjust m k f) x = posOf m x := by
  by_cases h : x = k
  · subst h
    unfold posOf
    rw [alistLookup_adjust_eq]
    cases alistLookup m x with
    | none => rfl
    | some e => simp [hf]
  · unfold posOf
    rw [alistLookup_adjust_ne _ _ _ _ h]

theorem alistLookup_mapval {β γ : Type} (m : List (String × β))
    (g : String → β → γ) (x : String) :
    alistLookup (m.map (fun e => (e.1, g e.1 e.2))) x = (alistLookup m x).map (g x) := by
  induction m with
  | nil => rfl
  | cons hd tl ih =>
    obtain ⟨k, v⟩ := hd
    simp only [alistLookup, List.map_cons, List.find?_cons] at ih ⊢
    by_cases hk : (k == x) = true
    · have : k = x := beq_iff_eq.mp hk
      subst this
      simp [hk]
    · have hk' : (k == x) = false := by simpa using hk
      simp only [hk']
      exact ih

theorem alistUpsert_forall {β : Type} (P : String × β → Prop) (m : List (String × β))
    (k : String) (v : β) (hm : ∀ e ∈ m, P e) (hv : P (k, v)) :
    ∀ e ∈ alistUpsert m k v, P e := by
  induction m with
  | nil => intro e he; simp only [alistUpsert, List.mem_singleton] at he; subst he; exact hv
  | cons hd tl ih =>
    obtain ⟨k', v'⟩ := hd
    intro e he
    by_cases hk : (k' == k) = true
    · simp only [alistUpsert, hk, if_pos] at he
      rcases List.mem_cons.mp he with rfl | he
      · exact hv
      · exact hm e (List.mem_cons_of_mem _ he)
    · simp only [alistUpsert, hk, Bool.false_eq_true, if_false] at he
      rcases List.mem_cons.mp he with rfl | he
      · exact hm _ (List.mem_cons_self _ _)
      · exact ih (fun e' he' => hm e' (List.mem_cons_of_mem _ he')) e he

theorem alistLookup_mem {β : Type} (m : List (String × β)) (x : String) {v : β}
    (h : alistLookup m x = some v) : (x, v) ∈ m := by
  induction m with
  | nil => simp [alistLookup] at h
  | cons hd tl ih =>
    obtain ⟨k, v'⟩ := hd
    simp only [alistLookup, List.find?_cons] at h
    by_cases hk : (k == x) = true
    · have : k = x := beq_iff_eq.mp hk
      subst this
      simp only [hk] at h
      have hv : v' = v := by simpa using h
      subst hv
      exact List.mem_cons_self _ _
    · have hk' : (k == x) = false := by simpa using hk
      simp only [hk'] at h
      exact List.mem_cons_of_mem _ (ih h)

/-- Every entry of the first-pass map has empty `children`, the key as its
`id`, and `isStandalone = true`. -/
theorem firstPass_entry (nodes : List NodeSyntaxData) :
    ∀ e ∈ firstPass nodes, e.2.children = [] ∧ e.2.id = e.1 := by
  unfold firstPass
  have main : ∀ (l : List NodeSyntaxData) (m : NodeMap),
      (∀ e ∈ m, e.2.children = [] ∧ e.2.id = e.1) →
      ∀ e ∈ l.foldl (fun m n => alistUpsert m n.id
        { id := n.id
          parentId := if n.parentId == "root" then none else some n.parentId
          label := n.label
          children := []
          position := n.fromPos
          isStandalone := true }) m, e.2.children = [] ∧ e.2.id = e.1 := by
    intro l
    induction l with
    | nil => intro m hm; exact hm
    | cons n rest ih =>
      intro m hm
      rw [List.foldl_cons]
      exact ih _ (alistUpsert_forall _ _ _ _ hm ⟨rfl, rfl⟩)
  exact main nodes [] (by intro e he; simp at he)

theorem firstPass_children_nil (nodes : List NodeSyntaxData) (x : String) :
    childrenOf (firstPass nodes) x = [] := by
  unfold childrenOf
  cases hl : alistLookup (firstPass nodes) x with
  | none => rfl
  | some e =>
    exact (firstPass_entry nodes (x, e) (alistLookup_mem _ _ hl)).1

/-- The fields of a node entry that the second pass never modifies. -/
def entrySig (e : TreeNodeE) : String × Option String × String × Nat :=
  (e.id, e.parentId, e.label, e.position)

theorem alistLookup_adjust_sig (m : NodeMap) (k x : String) (f : TreeNodeE → TreeNodeE)
    (hf : ∀ e, entrySig (f e) = entrySig e) :
    (alistLookup (alistAdjust m k f) x).map entrySig = (alistLookup m x).map entrySig := by
  by_cases h : x = k
  · subst h
    rw [alistLookup_adjust_eq]
    cases alistLookup m x with
    | none => rfl
    | some e => simp [hf]
  · rw [alistLookup_adjust_ne _ _ _ _ h]

theorem map_entrySig_isSome {o1 o2 : Option TreeNodeE}
    (h : o1.map entrySig = o2.map entrySig) : o1.isSome = o2.isSome := by
  cases o1 <;> cases o2 <;> simp_all

/-- Invariant of the second pass of `buildTree`, relative to the first-pass
map `m0`: the children arrays record exactly the processed relationships, the
`nodeHasParent`/`nodeHasChildren` sets are the two projections of the
processed list, the identifying fields of every entry agree with `m0`, and
every processed pair names two ids present in `m0` and is not a self-loop. -/
structure FoldInv (m0 : NodeMap) (s : BuildState) : Prop where
  child : ∀ a b, b ∈ childrenOf s.nodesById a ↔ (b, a) ∈ s.processed
  book1 : s.nodeHasParent = s.processed.map Prod.fst
  book2 : s.nodeHasChildren = s.processed.map Prod.snd
  skel : ∀ x, (alistLookup s.nodesById x).map entrySig = (alistLookup m0 x).map entrySig
  proc : ∀ pr ∈ s.processed,
    (alistLookup m0 pr.1).isSome ∧ (alistLookup m0 pr.2).isSome ∧ pr.1 ≠ pr.2

theorem buildStep_inv (m0 : NodeMap) (s : BuildState) (n : NodeSyntaxData)
    (h : FoldInv m0 s) : FoldInv m0 (buildStep s n) := by
  unfold buildStep
  cases hid : alistLookup s.nodesById n.id with
  | none => exact h
  | some e0 =>
    by_cases hroot : (n.parentId == "root" || n.parentId == "") = true
    · rw [if_pos hroot]
      exact ⟨h.child, h.book1, h.book2, h.skel, h.proc⟩
    · rw [if_neg hroot]
      cases hpar : alistLookup s.nodesById n.parentId with
      | none => exact ⟨h.child, h.book1, h.book2, h.skel, h.proc⟩
      | some ep =>
        by_cases hmem : (n.parentId, n.id) ∈ s.processed
        · rw [if_pos hmem]
          exact ⟨h.child, h.book1, h.book2, h.skel, h.proc⟩
        · rw [if_neg hmem]
          by_cases hself : (n.id == n.parentId) = true
          · rw [if_pos hself]
            exact ⟨h.child, h.book1, h.book2, h.skel, h.proc⟩
          · rw [if_neg hself]
            have hne : n.id ≠ n.parentId := by simpa using hself
            refine ⟨?_, ?_, ?_, ?_, ?_⟩
            · intro a b
              simp only
              rw [childrenOf_adjust_keep _ n.id a
                (fun e => { e with isStandalone := false }) (fun e => rfl)]
              by_cases ha : a = n.parentId
              · subst ha
                rw [childrenOf_adjust_self _ _ _ hpar]
                simp only
                have hch : childrenOf s.nodesById n.parentId = ep.children := by
                  unfold childrenOf
                  rw [hpar]
                  rfl
                rw [← hch]
                constructor
                · intro hb
                  rcases List.mem_append.mp hb with hb | hb
                  · exact List.mem_append_left _ ((h.child n.parentId b).mp hb)
                  · simp only [List.mem_singleton] at hb
                    subst hb
                    exact List.mem_append_right _ (by simp)
                · intro hb
                  rcases List.mem_append.mp hb with hb | hb
                  · exact List.mem_append_left _ ((h.child n.parentId b).mpr hb)
                  · simp only [List.mem_singleton, Prod.mk.injEq] at hb
                    exact List.mem_append_right _ (by simp [hb.1])
              · rw [childrenOf_adjust_ne _ _ _ _ ha]
                rw [h.child a b]
                constructor
                · intro hb; exact List.mem_append_left _ hb
                · intro hb
                  rcases List.mem_append.mp hb with hb | hb
                  · exact hb
                  · simp only [List.mem_singleton, Prod.mk.injEq] at hb
                    exact absurd hb.2 ha
            · simp only
              rw [h.book1]
              simp
            · simp only
              rw [h.book2]
              simp
            · intro x
              simp only
              rw [alistLookup_adjust_sig _ n.id x
                  (fun e => { e with isStandalone := false }) (fun e => rfl),
                alistLookup_adjust_sig _ n.parentId x
                  (fun e => { e with children := e.children ++ [n.id], isStandalone := false })
                  (fun e => rfl)]
              exact h.skel x
            · intro pr hpr
              simp only at hpr
              rcases List.mem_append.mp hpr with hpr | hpr
              · exact h.proc pr hpr
              · simp only [List.mem_singleton] at hpr
                subst hpr
                refine ⟨?_, ?_, hne⟩
                · rw [← map_entrySig_isSome (h.skel n.id), hid]
                  rfl
                · rw [← map_entrySig_isSome (h.skel n.parentId), hpar]
                  rfl

theorem buildFold_inv (m0 : NodeMap) (nodes : List NodeSyntaxData) :
    ∀ s : BuildState, FoldInv m0 s → FoldInv m0 (nodes.foldl buildStep s) := by
  induction nodes with
  | nil => intro s h; exact h
  | cons n rest ih =>
    intro s h
    rw [List.foldl_cons]
    exact ih _ (buildStep_inv m0 s n h)

theorem buildTree_inv (c : NodeCollection) :
    FoldInv (firstPass (sortS (fun a b => a.fromPos ≤ b.fromPos) c.nodes))
      ((sortS (fun a b => a.fromPos ≤ b.fromPos) c.nodes).foldl buildStep
        ⟨firstPass (sortS (fun a b => a.fromPos ≤ b.fromPos) c.nodes), [], [], [], []⟩) := by
  apply buildFold_inv
  refine ⟨?_, rfl, rfl, fun x => rfl, ?_⟩
  · intro a b
    rw [firstPass_children_nil]
    simp
  · intro pr hpr
    simp at hpr

theorem buildStep_shape (s : BuildState) (n : NodeSyntaxData) :
    ((buildStep s n).rootIds = s.rootIds ∧ (buildStep s n).processed = s.processed) ∨
    ((buildStep s n).rootIds = s.rootIds ++ [n.id] ∧
      (buildStep s n).processed = s.processed) ∨
    ((buildStep s n).rootIds = s.rootIds ∧
      (buildStep s n).processed = s.processed ++ [(n.id, n.parentId)]) := by
  unfold buildStep
  cases alistLookup s.nodesById n.id with
  | none => exact Or.inl ⟨rfl, rfl⟩
  | some e0 =>
    by_cases hroot : (n.parentId == "root" || n.parentId == "") = true
    · rw [if_pos hroot]; exact Or.inr (Or.inl ⟨rfl, rfl⟩)
    · rw [if_neg hroot]
      cases alistLookup s.nodesById n.parentId with
      | none => exact Or.inr (Or.inl ⟨rfl, rfl⟩)
      | some ep =>
        by_cases hmem : (n.parentId, n.id) ∈ s.processed
        · rw [if_pos hmem]; exact Or.inr (Or.inl ⟨rfl, rfl⟩)
        · rw [if_neg hmem]
          by_cases hself : (n.id == n.parentId) = true
          · rw [if_pos hself]; exact Or.inr (Or.inl ⟨rfl, rfl⟩)
          · rw [if_neg hself]; exact Or.inr (Or.inr ⟨rfl, rfl⟩)

/-- Under pairwise-distinct record ids, the fold keeps root ids and attached
child ids disjoint, and each id is attached at most once. -/
theorem buildFold_sep (nodes : List NodeSyntaxData) :
    ∀ s : BuildState,
      (nodes.map NodeSyntaxData.id).Nodup →
      (∀ n ∈ nodes, n.id ∉ s.rootIds ∧ ∀ p, (n.id, p) ∉ s.processed) →
      ((s.processed.map Prod.fst).Nodup ∧
        ∀ x ∈ s.rootIds, ∀ p, (x, p) ∉ s.processed) →
      (((nodes.foldl buildStep s).processed.map Prod.fst).Nodup ∧
        ∀ x ∈ (nodes.foldl buildStep s).rootIds, ∀ p,
          (x, p) ∉ (nodes.foldl buildStep s).processed) := by
  induction nodes with
  | nil => intro s _ _ h; exact h
  | cons n rest ih =>
    intro s hnodup hfresh hsep
    rw [List.foldl_cons]
    have hnodup' : (rest.map NodeSyntaxData.id).Nodup := by
      simpa using (List.nodup_cons.mp (by simpa using hnodup)).2
    have hidfresh : n.id ∉ rest.map NodeSyntaxData.id := by
      exact (List.nodup_cons.mp (by simpa using hnodup)).1
    obtain ⟨hnr, hnp⟩ := hfresh n (List.mem_cons_self _ _)
    rcases buildStep_shape s n with ⟨hr, hp⟩ | ⟨hr, hp⟩ | ⟨hr, hp⟩
    · refine ih _ hnodup' ?_ ?_
      · intro m hm
        rw [hr, hp]
        exact hfresh m (List.mem_cons_of_mem _ hm)
      · rw [hr, hp]
        exact hsep
    · refine ih _ hnodup' ?_ ?_
      · intro m hm
        rw [hr, hp]
        have hmne : m.id ≠ n.id := by
          intro hcontra
          exact hidfresh (hcontra ▸ List.mem_map_of_mem NodeSyntaxData.id hm)
        refine ⟨?_, (hfresh m (List.mem_cons_of_mem _ hm)).2⟩
        intro hcontra
        rcases List.mem_append.mp hcontra with hcontra | hcontra
        · exact (hfresh m (List.mem_cons_of_mem _ hm)).1 hcontra
        · simp only [List.mem_singleton] at hcontra
          exact hmne hcontra
      · rw [hr, hp]
        refine ⟨hsep.1, ?_⟩
        intro x hx p
        rcases List.mem_append.mp hx with hx | hx
        · exact hsep.2 x hx p
        · simp only [List.mem_singleton] at hx
          subst hx
          exact hnp p
    · refine ih _ hnodup' ?_ ?_
      · intro m hm
        rw [hr, hp]
        have hmne : m.id ≠ n.id := by
          intro hcontra
          exact hidfresh (hcontra ▸ List.mem_map_of_mem NodeSyntaxData.id hm)
        refine ⟨(hfresh m (List.mem_cons_of_mem _ hm)).1, ?_⟩
        intro p hcontra
        rcases List.mem_append.mp hcontra with hcontra | hcontra
        · exact (hfresh m (List.mem_cons_of_mem _ hm)).2 p hcontra
        · simp only [List.mem_singleton, Prod.mk.injEq] at hcontra
          exact hmne hcontra.1
      · rw [hr, hp]
        constructor
        · rw [List.map_append]
          simp only [List.map_cons, List.map_nil]
          have hnin : n.id ∉ s.processed.map Prod.fst := by
            intro hx
            obtain ⟨pr, hpr, hpr2⟩ := List.mem_map.mp hx
            apply hnp pr.2
            have heq : (n.id, pr.2) = pr := by
              rw [← hpr2]
            rw [heq]
            exact hpr
          rw [List.nodup_append]
          refine ⟨hsep.1, by simp, ?_⟩
          intro y hy hy2
          simp only [List.mem_singleton] at hy2
          subst hy2
          exact hnin hy
        · intro x hx p hcontra
          rcases List.mem_append.mp hcontra with hcontra | hcontra
          · exact hsep.2 x hx p hcontra
          · simp only [List.mem_singleton, Prod.mk.injEq] at hcontra
            apply hnr
            rw [← hcontra.1]
            exact hx

/-! ### Declarative characterization of successful attachment (for C4)

`attachStep` restates the branch structure of `buildStep` using only the
first-pass key set and the pairs already attached: record `n` attaches exactly
when its `parentId` is neither `"root"` nor empty, names an id present in the
map, the reverse pair has not been attached earlier, and it does not name
itself. -/

def attachStep (m0 : NodeMap) (acc : List (String × String)) (n : NodeSyntaxData) :
    List (String × String) :=
  if (alistLookup m0 n.id).isSome then
    if n.parentId == "root" || n.parentId == "" then acc
    else if (alistLookup m0 n.parentId).isSome then
      if (n.parentId, n.id) ∈ acc then acc
      else if n.id == n.parentId then acc
      else acc ++ [(n.id, n.parentId)]
    else acc
  else acc

def attachedPairs (m0 : NodeMap) (nodes : List NodeSyntaxData) : List (String × String) :=
  nodes.foldl (attachStep m0) []

theorem buildStep_processed_eq (m0 : NodeMap) (s : BuildState) (n : NodeSyntaxData)
    (hskel : ∀ x, (alistLookup s.nodesById x).map entrySig =
      (alistLookup m0 x).map entrySig) :
    (buildStep s n).processed = attachStep m0 s.processed n := by
  have hsome : ∀ x, (alistLookup s.nodesById x).isSome = (alistLookup m0 x).isSome :=
    fun x => map_entrySig_isSome (hskel x)
  unfold buildStep attachStep
  cases hid : alistLookup s.nodesById n.id with
  | none =>
    have h0 : (alistLookup m0 n.id).isSome = false := by
      rw [← hsome, hid]; rfl
    rw [h0]
    rfl
  | some e0 =>
    have h0 : (alistLookup m0 n.id).isSome = true := by
      rw [← hsome, hid]; rfl
    rw [h0]
    simp only [if_true]
    by_cases hroot : (n.parentId == "root" || n.parentId == "") = true
    · rw [if_pos hroot, if_pos hroot]
    · rw [if_neg hroot, if_neg hroot]
      cases hpar : alistLookup s.nodesById n.parentId with
      | none =>
        have h1 : (alistLookup m0 n.parentId).isSome = false := by
          rw [← hsome, hpar]; rfl
        rw [h1]
        rfl
      | some ep =>
        have h1 : (alistLookup m0 n.parentId).isSome = true := by
          rw [← hsome, hpar]; rfl
        rw [h1]
        simp only [if_true]
        by_cases hmem : (n.parentId, n.id) ∈ s.processed
        · rw [if_pos hmem, if_pos hmem]
        · rw [if_neg hmem, if_neg hmem]
          by_cases hself : (n.id == n.parentId) = true
          · rw [if_pos hself, if_pos hself]
          · rw [if_neg hself, if_neg hself]

theorem buildFold_processed (m0 : NodeMap) (nodes : List NodeSyntaxData) :
    ∀ s : BuildState, FoldInv m0 s →
      (nodes.foldl buildStep s).processed = nodes.foldl (attachStep m0) s.processed := by
  induction nodes with
  | nil => intro s _; rfl
  | cons n rest ih =>
    intro s h
    rw [List.foldl_cons, List.foldl_cons, ← buildStep_processed_eq m0 s n h.skel]
    exact ih _ (buildStep_inv m0 s n h)

theorem buildState2_inv (c : NodeCollection) :
    FoldInv (firstPass (buildSorted c)) (buildState2 c) := by
  apply buildFold_inv
  refine ⟨?_, rfl, rfl, fun x => rfl, ?_⟩
  · intro a b
    rw [firstPass_children_nil]
    simp
  · intro pr hpr
    simp at hpr

theorem alistLookup_standalonePass (s : BuildState) (x : String) :
    alistLookup (standalonePass s).nodesById x =
      (alistLookup s.nodesById x).map (fun v =>
        { v with
          isStandalone :=
            !(s.nodeHasParent.contains x) && !(s.nodeHasChildren.contains x)
          children :=
            if !(s.nodeHasParent.contains x) && !(s.nodeHasChildren.contains x)
            then [] else v.children }) := by
  unfold standalonePass
  simp only
  generalize s.nodesById = m
  induction m with
  | nil => rfl
  | cons hd tl ih =>
    obtain ⟨k, v⟩ := hd
    simp only [alistLookup, List.map_cons, List.find?_cons] at ih ⊢
    by_cases hk : (k == x) = true
    · have hkx : k = x := beq_iff_eq.mp hk
      subst hkx
      simp only [hk]
      rfl
    · have hk' : (k == x) = false := by simpa using hk
      simp only [hk']
      exact ih

theorem standaloneOf_standalonePass (s : BuildState) (x : String) :
    standaloneOf (standalonePass s).nodesById x =
      ((alistLookup s.nodesById x).isSome &&
        (!(s.nodeHasParent.contains x) && !(s.nodeHasChildren.contains x))) := by
  unfold standaloneOf
  rw [alistLookup_standalonePass]
  cases alistLookup s.nodesById x with
  | none => rfl
  | some e => simp

theorem contains_iff_mem_str (l : List String) (x : String) :
    l.contains x = true ↔ x ∈ l :=
  List.elem_iff

/-- **C4 (amended).**  The set of nodes `buildTree` flags `isStandalone=true`
is exactly the set of ids `x` present in the scope for which the record
carrying id `x` never successfully attaches to a parent and no record
successfully attaches to `x` as its parent — where record `n` "successfully
attaches" (`attachedPairs`) iff its `parentId` is neither `"root"` nor empty,
names an id present in the scope, is not `n` itself, and the mutual-cycle
guard does not fire.  (The original claim's set — `parentId="root"` and no
other record naming `x` — is strictly smaller: an orphan whose parent is
absent is also flagged standalone, see the counterexample.) -/
theorem c4_standalone_iff_never_attached (c : NodeCollection) (x : String) :
    standaloneOf (buildTree c).nodesById x = true ↔
      ((alistLookup (firstPass (buildSorted c)) x).isSome = true ∧
        x ∉ (attachedPairs (firstPass (buildSorted c)) (buildSorted c)).map Prod.fst ∧
        x ∉ (attachedPairs (firstPass (buildSorted c)) (buildSorted c)).map Prod.snd) := by
  have hinv := buildState2_inv c
  have hnb : (buildTree c).nodesById = (buildState3 c).nodesById := rfl
  rw [hnb]
  unfold buildState3
  rw [standaloneOf_standalonePass]
  have hproc : (buildState2 c).processed =
      attachedPairs (firstPass (buildSorted c)) (buildSorted c) := by
    unfold buildState2 attachedPairs
    rw [buildFold_processed (firstPass (buildSorted c)) (buildSorted c) _
      (by
        refine ⟨?_, rfl, rfl, fun x => rfl, ?_⟩
        · intro a b
          rw [firstPass_children_nil]
          simp
        · intro pr hpr
          simp at hpr)]
  have hsome := map_entrySig_isSome (hinv.skel x)
  rw [hsome, hinv.book1, hinv.book2, hproc]
  simp only [Bool.and_eq_true, Bool.not_eq_true']
  constructor
  · rintro ⟨h1, h2, h3⟩
    refine ⟨h1, ?_, ?_⟩
    · intro hx
      rw [(contains_iff_mem_str _ _).mpr hx] at h2
      cases h2
    · intro hx
      rw [(contains_iff_mem_str _ _).mpr hx] at h3
      cases h3
  · rintro ⟨h1, h2, h3⟩
    refine ⟨h1, ?_, ?_⟩
    · cases hc : List.contains ((attachedPairs (firstPass (buildSorted c))
        (buildSorted c)).map Prod.fst) x with
      | false => rfl
      | true => exact absurd ((contains_iff_mem_str _ _).mp hc) h2
    · cases hc : List.contains ((attachedPairs (firstPass (buildSorted c))
        (buildSorted c)).map Prod.snd) x with
      | false => rfl
      | true => exact absurd ((contains_iff_mem_str _ _).mp hc) h3

/-- The standalone set as the claim literally describes it: id of a record
with `parentId = "root"` that no record in the collection names as parent. -/
def claimedStandalone (c : NodeCollection) (x : String) : Bool :=
  c.nodes.any (fun n => n.id == x && n.parentId == "root" &&
    c.nodes.all (fun m => !(m.parentId == x)))

def orphanC : NodeCollection :=
  { nodes := [{ id := "X", parentId := "Y", label := "", fromPos := 0, toPos := 1 }] }

/-- **C4 (counterexample).**  An orphan — a record whose named parent does not
exist in the scope — is flagged `isStandalone = true` by `buildTree` although
its `parentId` is not `"root"`, so the flagged set is strictly larger than the
set the claim describes. -/
theorem c4_counterexample_orphan_flagged :
    standaloneOf (buildTree orphanC).nodesById "X" = true ∧
      claimedStandalone orphanC "X" = false := by decide

/-! ### Parent chains of the attachment relation (for C3/C9)

Each successfully attached node has exactly one parent (its attachment pair),
so descending the children graph backwards is iteration of the partial
function `parentF`.  A node on a children-cycle iterates forever inside the
cycle and can never reach an unattached root: this is the core of the
acyclicity argument. -/

def parentF (pairs : List (String × String)) (x : String) : Option String :=
  (pairs.find? (fun pr => pr.1 == x)).map Prod.snd

def pIterF (pairs : List (String × String)) : Nat → String → Option String
  | 0, x => some x
  | k+1, x => (parentF pairs x).bind (pIterF pairs k)

theorem parentF_eq_none (pairs : List (String × String)) (x : String)
    (h : ∀ p, (x, p) ∉ pairs) : parentF pairs x = none := by
  unfold parentF
  cases hf : pairs.find? (fun pr => pr.1 == x) with
  | none => rfl
  | some pr =>
    exfalso
    have hmem := List.mem_of_find?_eq_some hf
    have hpred := List.find?_some hf
    have hx : pr.1 = x := by simpa using hpred
    apply h pr.2
    have : (x, pr.2) = pr := by
      rw [← hx]
    rw [this]
    exact hmem

theorem mem_iff_parentF (pairs : List (String × String))
    (hnd : (pairs.map Prod.fst).Nodup) (b a : String) :
    (b, a) ∈ pairs ↔ parentF pairs b = some a := by
  induction pairs with
  | nil => simp [parentF]
  | cons pr tl ih =>
    obtain ⟨p1, p2⟩ := pr
    simp only [List.map_cons, List.nodup_cons] at hnd
    unfold parentF
    rw [List.find?_cons]
    by_cases hp : (p1 == b) = true
    · have hp1 : p1 = b := beq_iff_eq.mp hp
      subst hp1
      simp only [hp]
      constructor
      · intro hmem
        rcases List.mem_cons.mp hmem with heq | hmem
        · simp only [Prod.mk.injEq] at heq
          simp [heq.2]
        · exfalso
          exact hnd.1 (List.mem_map_of_mem Prod.fst hmem)
      · intro heq
        have hp2 : p2 = a := by simpa using heq
        subst hp2
        exact List.mem_cons_self _ _
    · have hp' : (p1 == b) = false := by simpa using hp
      simp only [hp']
      rw [List.mem_cons]
      constructor
      · intro hmem
        rcases hmem with heq | hmem
        · exfalso
          simp only [Prod.mk.injEq] at heq
          exact hp (beq_iff_eq.mpr heq.1.symm)
        · exact (ih hnd.2).mp hmem
      · intro heq
        exact Or.inr ((ih hnd.2).mpr heq)

theorem pIterF_add (pairs : List (String × String)) (a b : Nat) (x : String) :
    pIterF pairs (a + b) x = (pIterF pairs a x).bind (pIterF pairs b) := by
  induction a generalizing x with
  | zero => simp [pIterF]
  | succ a ih =>
    have hs : a + 1 + b = (a + b) + 1 := by omega
    have hL : pIterF pairs ((a + b) + 1) x =
        (parentF pairs x).bind (pIterF pairs (a + b)) := rfl
    have hR : pIterF pairs (a + 1) x = (parentF pairs x).bind (pIterF pairs a) := rfl
    rw [hs, hL, hR]
    cases parentF pairs x with
    | none => simp
    | some y =>
      simp only [Option.some_bind]
      exact ih y

theorem rtg_iter {m : NodeMap} {pairs : List (String × String)}
    (hstep : ∀ a b, StepRel m a b ↔ parentF pairs b = some a)
    {r x : String} (h : Relation.ReflTransGen (StepRel m) r x) :
    ∃ k, pIterF pairs k x = some r := by
  induction h with
  | refl => exact ⟨0, rfl⟩
  | tail hab hbc ih =>
    obtain ⟨k, hk⟩ := ih
    refine ⟨k + 1, ?_⟩
    show (parentF pairs _).bind (pIterF pairs k) = some r
    rw [(hstep _ _).mp hbc]
    simpa using hk

theorem transgen_iter {m : NodeMap} {pairs : List (String × String)}
    (hstep : ∀ a b, StepRel m a b ↔ parentF pairs b = some a)
    {x y : String} (h : Relation.TransGen (StepRel m) x y) :
    ∃ k, 0 < k ∧ pIterF pairs k y = some x := by
  induction h with
  | single hs =>
    refine ⟨1, Nat.one_pos, ?_⟩
    show (parentF pairs _).bind (pIterF pairs 0) = some x
    rw [(hstep _ _).mp hs]
    rfl
  | tail hxy hyz ih =>
    obtain ⟨k, hk0, hk⟩ := ih
    refine ⟨k + 1, by omega, ?_⟩
    show (parentF pairs _).bind (pIterF pairs k) = some x
    rw [(hstep _ _).mp hyz]
    simpa using hk

theorem iter_cycle_absurd (pairs : List (String × String)) {x r : String}
    {k mm : Nat} (hm : 0 < mm) (hcyc : pIterF pairs mm x = some x)
    (hreach : pIterF pairs k x = some r) (hroot : parentF pairs r = none) :
    False := by
  have hmul : ∀ q, pIterF pairs (q * mm) x = some x := by
    intro q
    induction q with
    | zero => simp [pIterF]
    | succ q ih =>
      have : (q + 1) * mm = q * mm + mm := by ring
      rw [this, pIterF_add, ih]
      simpa using hcyc
  have hge : k ≤ (k + 1) * mm := by
    calc k ≤ k + 1 := by omega
    _ ≤ (k + 1) * mm := Nat.le_mul_of_pos_right _ hm
  obtain ⟨st, hst⟩ : ∃ st, (k + 1) * mm = k + st := ⟨(k + 1) * mm - k, by omega⟩
  have h2 : pIterF pairs (k + st) x = some x := by
    rw [← hst]
    exact hmul (k + 1)
  rw [pIterF_add, hreach] at h2
  simp only [Option.some_bind] at h2
  cases st with
  | zero =>
    have hrx : r = x := by simpa [pIterF] using h2
    subst hrx
    cases mm with
    | zero => omega
    | succ mm' =>
      have : pIterF pairs (mm' + 1) r = (parentF pairs r).bind (pIterF pairs mm') := rfl
      rw [this, hroot] at hcyc
      simp at hcyc
  | succ st' =>
    have : pIterF pairs (st' + 1) r = (parentF pairs r).bind (pIterF pairs st') := rfl
    rw [this, hroot] at h2
    simp at h2

theorem no_cycle_from_root {m : NodeMap} {pairs : List (String × String)}
    (hstep : ∀ a b, StepRel m a b ↔ parentF pairs b = some a)
    {r x : String} (hroot : parentF pairs r = none)
    (hreach : Relation.ReflTransGen (StepRel m) r x) :
    ¬ Relation.TransGen (StepRel m) x x := by
  intro hcyc
  obtain ⟨k, hk⟩ := rtg_iter hstep hreach
  obtain ⟨mm, hm0, hmm⟩ := transgen_iter hstep hcyc
  exact iter_cycle_absurd pairs hm0 hmm hk hroot

theorem childrenOf_standalonePass (s : BuildState)
    (hchild : ∀ a b, b ∈ childrenOf s.nodesById a ↔ (b, a) ∈ s.processed)
    (hbook2 : s.nodeHasChildren = s.processed.map Prod.snd) (x : String) :
    childrenOf (standalonePass s).nodesById x = childrenOf s.nodesById x := by
  unfold childrenOf
  rw [alistLookup_standalonePass]
  cases hl : alistLookup s.nodesById x with
  | none => rfl
  | some e =>
    show ((if (!(s.nodeHasParent.contains x) && !(s.nodeHasChildren.contains x))
        then [] else e.children) : List String) = e.children
    by_cases hc : (!(s.nodeHasParent.contains x) && !(s.nodeHasChildren.contains x)) = true
    · rw [if_pos hc]
      cases hch : e.children with
      | nil => rfl
      | cons b bs =>
        exfalso
        have hb : b ∈ childrenOf s.nodesById x := by
          unfold childrenOf
          rw [hl]
          simp [hch]
        have hmem := (hchild x b).mp hb
        have hxsnd : x ∈ s.processed.map Prod.snd :=
          List.mem_map.mpr ⟨(b, x), hmem, rfl⟩
        rw [← hbook2] at hxsnd
        have hcont := (contains_iff_mem_str _ _).mpr hxsnd
        rw [hcont] at hc
        simp at hc
    · rw [if_neg hc]

theorem buildSorted_ids_nodup (c : NodeCollection)
    (huniq : (c.nodes.map NodeSyntaxData.id).Nodup) :
    ((buildSorted c).map NodeSyntaxData.id).Nodup := by
  have hperm : ((buildSorted c).map NodeSyntaxData.id).Perm
      (c.nodes.map NodeSyntaxData.id) :=
    (perm_sortS _ c.nodes).map NodeSyntaxData.id
  exact hperm.nodup_iff.mpr huniq

theorem buildState2_sep (c : NodeCollection)
    (huniq : (c.nodes.map NodeSyntaxData.id).Nodup) :
    (((buildState2 c).processed.map Prod.fst).Nodup ∧
      ∀ x ∈ (buildState2 c).rootIds, ∀ p, (x, p) ∉ (buildState2 c).processed) := by
  apply buildFold_sep (buildSorted c) _ (buildSorted_ids_nodup c huniq)
  · intro n _
    exact ⟨by simp, by simp⟩
  · exact ⟨by simp, by simp⟩

theorem buildTree_step_iff (c : NodeCollection)
    (huniq : (c.nodes.map NodeSyntaxData.id).Nodup) (a b : String) :
    StepRel (buildTree c).nodesById a b ↔
      parentF (buildState2 c).processed b = some a := by
  have hinv := buildState2_inv c
  have hnb : (buildTree c).nodesById = (buildState3 c).nodesById := rfl
  rw [hnb]
  unfold StepRel
  unfold buildState3
  rw [childrenOf_standalonePass _ hinv.child hinv.book2]
  rw [hinv.child a b]
  exact mem_iff_parentF _ (buildState2_sep c huniq).1 b a

/-- In the forest returned by `buildTree` on a collection with
pairwise-distinct ids, no node reachable from a tree root is reachable from
itself by descending children links. -/
theorem buildTree_acyclic (c : NodeCollection)
    (huniq : (c.nodes.map NodeSyntaxData.id).Nodup) :
    ∀ t ∈ (buildTree c).trees, ∀ x,
      Relation.ReflTransGen (StepRel (buildTree c).nodesById) t.rootId x →
      ¬ Relation.TransGen (StepRel (buildTree c).nodesById) x x := by
  intro t ht x hreach
  obtain ⟨r, hr, rfl⟩ := List.mem_map.mp ht
  have hr2 : r ∈ (buildState2 c).rootIds := by
    have hrs : r ∈ sortS (rootLE (buildState3 c).nodesById) (buildState3 c).rootIds := hr
    exact (mem_sortS _ _ _).mp hrs
  have hroot : parentF (buildState2 c).processed r = none :=
    parentF_eq_none _ r ((buildState2_sep c huniq).2 r hr2)
  exact no_cycle_from_root (buildTree_step_iff c huniq) hroot hreach

/-! ### Lemmas about the fueled `sortTreeNodeChildren` traversal -/

theorem foldlM_option_preserve {α β : Type} (step : β → α → Option β) (P : β → Prop)
    (hstep : ∀ b a b', P b → step b a = some b' → P b') :
    ∀ (cs : List α) (b b' : β), P b → cs.foldlM step b = some b' → P b' := by
  intro cs
  induction cs with
  | nil =>
    intro b b' hP h
    simp only [List.foldlM_nil] at h
    cases h
    exact hP
  | cons c rest ih =>
    intro b b' hP h
    rw [List.foldlM_cons] at h
    cases hs : step b c with
    | none => rw [hs] at h; cases h
    | some b2 =>
      rw [hs] at h
      simp only [Option.bind_eq_bind, Option.some_bind] at h
      exact ih b2 b' (hstep b c b2 hP hs) h

theorem sortF_visited (fuel : Nat) (m : NodeMap) (v : List String) (id : String)
    (h : id ∈ v) : sortTreeNodeChildrenF (fuel + 1) m v id = some m := by
  show (if (childrenOf m id).isEmpty then some m
    else if v.contains id then some m else _) = some m
  by_cases he : (childrenOf m id).isEmpty
  · rw [if_pos he]
  · rw [if_neg he, if_pos ((contains_iff_mem_str v id).mpr h)]

theorem sortF_unfold (f : Nat) (m : NodeMap) (v : List String) (id : String) :
    sortTreeNodeChildrenF (f + 1) m v id =
      if (childrenOf m id).isEmpty then some m
      else if v.contains id then some m
      else (sortS (fun a b => posOf m a ≤ posOf m b) (childrenOf m id)).foldlM
        (fun acc c => sortTreeNodeChildrenF f acc (id :: v) c)
        (alistAdjust m id (fun e => { e with
          children := sortS (fun a b => posOf m a ≤ posOf m b) (childrenOf m id) })) := rfl

theorem sortF_keys :
    ∀ (fuel : Nat) (m : NodeMap) (v : List String) (id : String) (m' : NodeMap),
      sortTreeNodeChildrenF fuel m v id = some m' →
      m'.map Prod.fst = m.map Prod.fst := by
  intro fuel
  induction fuel with
  | zero => intro m v id m' h; cases h
  | succ f ih =>
    intro m v id m' h
    rw [sortF_unfold] at h
    by_cases h1 : (childrenOf m id).isEmpty
    · rw [if_pos h1] at h; cases h; rfl
    · rw [if_neg h1] at h
      by_cases h2 : (v.contains id) = true
      · rw [if_pos h2] at h; cases h; rfl
      · rw [if_neg h2] at h
        refine foldlM_option_preserve _ (fun b => b.map Prod.fst = m.map Prod.fst)
          ?_ _ _ m' (alistAdjust_keys _ _ _) h
        intro b a b' hP hs
        show b'.map Prod.fst = m.map Prod.fst
        rw [ih _ _ _ _ hs]
        exact hP

theorem sortF_pos :
    ∀ (fuel : Nat) (m : NodeMap) (v : List String) (id : String) (m' : NodeMap),
      sortTreeNodeChildrenF fuel m v id = some m' →
      ∀ x, posOf m' x = posOf m x := by
  intro fuel
  induction fuel with
  | zero => intro m v id m' h; cases h
  | succ f ih =>
    intro m v id m' h
    rw [sortF_unfold] at h
    by_cases h1 : (childrenOf m id).isEmpty
    · rw [if_pos h1] at h; cases h; intro x; rfl
    · rw [if_neg h1] at h
      by_cases h2 : (v.contains id) = true
      · rw [if_pos h2] at h; cases h; intro x; rfl
      · rw [if_neg h2] at h
        refine foldlM_option_preserve _ (fun b => ∀ x, posOf b x = posOf m x)
          ?_ _ _ m' ?_ h
        · intro b a b' hP hs x
          show posOf b' x = posOf m x
          rw [ih _ _ _ _ hs x]
          exact hP x
        · intro x
          exact posOf_adjust_keep _ _ _ _ (fun e => rfl)

theorem childrenOf_eq_of_lookup (m : NodeMap) (id : String) {e : TreeNodeE}
    (hl : alistLookup m id = some e) : childrenOf m id = e.children := by
  unfold childrenOf
  rw [hl]
  rfl

theorem sortF_perm :
    ∀ (fuel : Nat) (m : NodeMap) (v : List String) (id : String) (m' : NodeMap),
      sortTreeNodeChildrenF fuel m v id = some m' →
      ∀ x, (childrenOf m' x).Perm (childrenOf m x) := by
  intro fuel
  induction fuel with
  | zero => intro m v id m' h; cases h
  | succ f ih =>
    intro m v id m' h
    rw [sortF_unfold] at h
    by_cases h1 : (childrenOf m id).isEmpty
    · rw [if_pos h1] at h; cases h; intro x; exact List.Perm.refl _
    · rw [if_neg h1] at h
      by_cases h2 : (v.contains id) = true
      · rw [if_pos h2] at h; cases h; intro x; exact List.Perm.refl _
      · rw [if_neg h2] at h
        refine foldlM_option_preserve _
          (fun b => ∀ x, (childrenOf b x).Perm (childrenOf m x))
          (fun b a b' hP hs x => ((ih _ _ _ _ hs) x).trans (hP x)) _ _ m' ?_ h
        intro x
        by_cases hx : x = id
        · subst hx
          cases hl : alistLookup m x with
          | none =>
            exfalso
            apply h1
            simp [childrenOf, hl]
          | some e =>
            rw [childrenOf_adjust_self _ _ _ hl]
            exact perm_sortS _ _
        · rw [childrenOf_adjust_ne _ _ _ _ hx]

theorem pairwise_sortS_pos (m : NodeMap) (pos0 : String → Nat)
    (hpos : ∀ y, posOf m y = pos0 y) (l : List String) :
    (sortS (fun a b => decide (posOf m a ≤ posOf m b)) l).Pairwise
      (fun a b => pos0 a ≤ pos0 b) := by
  have hs := sorted_sortS (fun a b => decide (posOf m a ≤ posOf m b))
    (fun a b hab => by
      simp only [decide_eq_false_iff_not, not_le] at hab
      simp [Nat.le_of_lt hab])
    (fun a b c hab hbc => by
      simp only [decide_eq_true_eq] at hab hbc ⊢
      omega) l
  refine hs.imp ?_
  intro a b hab
  simp only [decide_eq_true_eq] at hab
  rw [← hpos a, ← hpos b]
  exact hab

theorem sortF_sorted_dichotomy :
    ∀ (fuel : Nat) (m : NodeMap) (v : List String) (id : String) (m' : NodeMap)
      (pos0 : String → Nat),
      sortTreeNodeChildrenF fuel m v id = some m' →
      (∀ y, posOf m y = pos0 y) →
      ∀ x, childrenOf m' x = childrenOf m x ∨
        (childrenOf m' x).Pairwise (fun a b => pos0 a ≤ pos0 b) := by
  intro fuel
  induction fuel with
  | zero => intro m v id m' pos0 h; cases h
  | succ f ih =>
    intro m v id m' pos0 h hpos
    rw [sortF_unfold] at h
    by_cases h1 : (childrenOf m id).isEmpty
    · rw [if_pos h1] at h; cases h; intro x; exact Or.inl rfl
    · rw [if_neg h1] at h
      by_cases h2 : (v.contains id) = true
      · rw [if_pos h2] at h; cases h; intro x; exact Or.inl rfl
      · rw [if_neg h2] at h
        refine foldlM_option_preserve _
          (fun b => (∀ y, posOf b y = pos0 y) ∧
            (∀ x, childrenOf b x = childrenOf m x ∨
              (childrenOf b x).Pairwise (fun a b => pos0 a ≤ pos0 b)))
          ?_ _ _ m' ?_ h |>.2
        · intro b a b' hP hs
          refine ⟨?_, ?_⟩
          · intro y
            rw [sortF_pos _ _ _ _ _ hs y]
            exact hP.1 y
          · intro x
            rcases ih _ _ _ _ pos0 hs hP.1 x with heq | hsorted
            · rw [heq]
              exact hP.2 x
            · exact Or.inr hsorted
        · refine ⟨?_, ?_⟩
          · intro y
            refine Eq.trans (posOf_adjust_keep m id y _ ?_) (hpos y)
            intro e
            rfl
          · intro x
            by_cases hx : x = id
            · subst hx
              cases hl : alistLookup m x with
              | none =>
                exfalso
                apply h1
                simp [childrenOf, hl]
              | some e =>
                rw [childrenOf_adjust_self _ _ _ hl]
                exact Or.inr (pairwise_sortS_pos m pos0 hpos _)
            · rw [childrenOf_adjust_ne _ _ _ _ hx]
              exact Or.inl rfl

/-! Fuel sufficiency for the child-sorting recursion: the number of
not-yet-visited keys with nonempty children strictly decreases. -/

def NEcount (v : List String) (m : NodeMap) : Nat :=
  ((m.map Prod.fst).filter
    (fun k => !(childrenOf m k).isEmpty && !(v.contains k))).length

theorem filter_length_le_of_imp {α : Type} (l : List α) (p q : α → Bool)
    (h : ∀ x ∈ l, p x = true → q x = true) :
    (l.filter p).length ≤ (l.filter q).length := by
  induction l with
  | nil => simp
  | cons a t ih =>
    have ht : ∀ x ∈ t, p x = true → q x = true :=
      fun x hx => h x (List.mem_cons_of_mem a hx)
    by_cases hp : p a = true
    · have hq := h a (List.mem_cons_self a t) hp
      simp only [List.filter_cons, hp, hq, if_pos, List.length_cons]
      exact Nat.succ_le_succ (ih ht)
    · rw [List.filter_cons_of_neg (by simpa using hp)]
      by_cases hq : q a = true
      · rw [List.filter_cons_of_pos hq]
        exact Nat.le_succ_of_le (ih ht)
      · rw [List.filter_cons_of_neg (by simpa using hq)]
        exact ih ht

theorem filter_length_lt_of_imp {α : Type} (l : List α) (p q : α → Bool)
    (h : ∀ x ∈ l, p x = true → q x = true) (x : α) (hx : x ∈ l)
    (hq : q x = true) (hp : p x = false) :
    (l.filter p).length < (l.filter q).length := by
  induction l with
  | nil => cases hx
  | cons a t ih =>
    have ht : ∀ y ∈ t, p y = true → q y = true :=
      fun y hy => h y (List.mem_cons_of_mem a hy)
    rcases List.mem_cons.mp hx with rfl | hxt
    · rw [List.filter_cons_of_neg (by simp [hp]), List.filter_cons_of_pos hq]
      exact Nat.lt_succ_of_le (filter_length_le_of_imp t p q ht)
    · by_cases hpa : p a = true
      · have hqa := h a (List.mem_cons_self a t) hpa
        rw [List.filter_cons_of_pos hpa, List.filter_cons_of_pos hqa]
        exact Nat.succ_lt_succ (ih ht hxt)
      · rw [List.filter_cons_of_neg (by simpa using hpa)]
        by_cases hqa : q a = true
        · rw [List.filter_cons_of_pos hqa]
          exact Nat.lt_succ_of_lt (ih ht hxt)
        · rw [List.filter_cons_of_neg (by simpa using hqa)]
          exact ih ht hxt

theorem alistLookup_some_mem {β : Type} (m : List (String × β)) (k : String)
    {e : β} (h : alistLookup m k = some e) : k ∈ m.map Prod.fst := by
  unfold alistLookup at h
  cases hf : m.find? (fun e => e.1 == k) with
  | none => rw [hf] at h; cases h
  | some p =>
    have hmem := List.mem_of_find?_eq_some hf
    have hpred := List.find?_some hf
    have hk : p.1 = k := by simpa using hpred
    rw [← hk]
    exact List.mem_map.mpr ⟨p, hmem, rfl⟩

theorem isEmpty_eq_of_perm {α : Type} {l l' : List α} (h : l.Perm l') :
    l.isEmpty = l'.isEmpty := by
  cases l with
  | nil =>
    have := h.nil_eq
    simp [← this]
  | cons a t =>
    cases l' with
    | nil => exact absurd h.symm.nil_eq (by simp)
    | cons b t' => rfl

theorem NEcount_congr (v : List String) (m m' : NodeMap)
    (hk : m'.map Prod.fst = m.map Prod.fst)
    (hc : ∀ x, (childrenOf m' x).Perm (childrenOf m x)) :
    NEcount v m' = NEcount v m := by
  unfold NEcount
  rw [hk]
  congr 1
  apply List.filter_congr
  intro x _
  rw [isEmpty_eq_of_perm (hc x)]

theorem foldlM_option_total {α β : Type} (step : β → α → Option β) (P : β → Prop)
    (hstep : ∀ b a, P b → ∃ b', step b a = some b' ∧ P b') :
    ∀ (l : List α) (b : β), P b → ∃ b', l.foldlM step b = some b' := by
  intro l
  induction l with
  | nil => intro b hb; exact ⟨b, rfl⟩
  | cons a t ih =>
    intro b hb
    obtain ⟨b1, hb1, hP1⟩ := hstep b a hb
    obtain ⟨b', hb'⟩ := ih b1 hP1
    refine ⟨b', ?_⟩
    rw [List.foldlM_cons, hb1]
    simpa using hb'

theorem sortF_isSome :
    ∀ (fuel : Nat) (m : NodeMap) (v : List String) (id : String),
      NEcount v m < fuel →
      ∃ m', sortTreeNodeChildrenF fuel m v id = some m' := by
  intro fuel
  induction fuel with
  | zero => intro m v id h; cases h
  | succ f ih =>
    intro m v id hlt
    rw [sortF_unfold]
    by_cases h1 : (childrenOf m id).isEmpty
    · rw [if_pos h1]; exact ⟨m, rfl⟩
    · rw [if_neg h1]
      by_cases h2 : (v.contains id) = true
      · rw [if_pos h2]; exact ⟨m, rfl⟩
      · rw [if_neg h2]
        have hmem : id ∈ m.map Prod.fst := by
          cases hl : alistLookup m id with
          | none =>
            exfalso; apply h1; simp [childrenOf, hl]
          | some e => exact alistLookup_some_mem m id hl
        have hq : (!(childrenOf m id).isEmpty && !(v.contains id)) = true := by
          rw [Bool.and_eq_true]
          exact ⟨by simpa using h1, by simpa using h2⟩
        have hdec : NEcount (id :: v) (alistAdjust m id (fun e => { e with children := sortS (fun a b => decide (posOf m a ≤ posOf m b)) (childrenOf m id) })) < NEcount v m := by
          unfold NEcount
          rw [alistAdjust_keys]
          refine filter_length_lt_of_imp _ _ _ ?_ id hmem hq (by simp)
          intro x _ hpx
          simp only [Bool.and_eq_true, Bool.not_eq_true'] at hpx ⊢
          have hxid : x ≠ id := by
            intro hxe
            subst hxe
            simp at hpx
          refine ⟨?_, ?_⟩
          · rw [childrenOf_adjust_ne _ _ _ _ hxid] at hpx
            exact hpx.1
          · have := hpx.2
            simp only [List.contains_cons, Bool.or_eq_false_iff] at this
            exact this.2
        have hinit : NEcount (id :: v) (alistAdjust m id (fun e => { e with children := sortS (fun a b => decide (posOf m a ≤ posOf m b)) (childrenOf m id) })) < f :=
          Nat.lt_of_lt_of_le hdec (Nat.lt_succ_iff.mp hlt)
        exact foldlM_option_total _ (fun b => NEcount (id :: v) b < f)
          (fun b a hb => by
            obtain ⟨b', hb'⟩ := ih b (id :: v) a hb
            refine ⟨b', hb', ?_⟩
            show NEcount (id :: v) b' < f
            rw [NEcount_congr (id :: v) b b' (sortF_keys _ _ _ _ _ hb')
              (sortF_perm _ _ _ _ _ hb')]
            exact hb) _ _ hinit

theorem NEcount_le_length (v : List String) (m : NodeMap) :
    NEcount v m ≤ m.length := by
  unfold NEcount
  calc ((m.map Prod.fst).filter _).length ≤ (m.map Prod.fst).length :=
        List.length_filter_le _ _
    _ = m.length := List.length_map _ _

theorem sortTrees_eq_some (r : BuildResult) (m : NodeMap)
    (h : List.foldlM
      (fun m t => sortTreeNodeChildrenF (m.length + 2) m [] t.rootId)
      r.nodesById
      (sortS (fun a b => decide (a.position ≤ b.position)) r.trees) = some m) :
    sortTreesByPosition r = some { trees := sortS (fun a b => decide (a.position ≤ b.position)) r.trees, nodesById := m, rootIds := r.rootIds, processed := r.processed, nodeHasParent := r.nodeHasParent, nodeHasChildren := r.nodeHasChildren } := by
  simp [sortTreesByPosition, h]

theorem sortTreesByPosition_isSome (r : BuildResult) :
    ∃ r', sortTreesByPosition r = some r' := by
  obtain ⟨m', hm'⟩ := foldlM_option_total
    (fun (m : NodeMap) (t : TreeDataM) =>
      sortTreeNodeChildrenF (m.length + 2) m [] t.rootId)
    (fun _ => True)
    (fun m t _ => by
      obtain ⟨m2, hm2⟩ := sortF_isSome (m.length + 2) m [] t.rootId
        (Nat.lt_of_le_of_lt (NEcount_le_length [] m)
          (by omega))
      exact ⟨m2, hm2, trivial⟩)
    (sortS (fun a b => decide (a.position ≤ b.position)) r.trees) r.nodesById
    trivial
  exact ⟨_, sortTrees_eq_some r m' hm'⟩

/-! Explicit descending-children paths.  `Chain m s l x` records a walk from
`s` to `x` whose successive intermediate nodes are listed in `l`. -/

inductive Chain (m : NodeMap) : String → List String → String → Prop
  | nil (s : String) : Chain m s [] s
  | cons {s c x : String} {l : List String} :
      c ∈ childrenOf m s → Chain m c l x → Chain m s (c :: l) x

theorem chain_congr {ma mb : NodeMap}
    (h : ∀ y, (childrenOf ma y).Perm (childrenOf mb y)) :
    ∀ {s l x}, Chain ma s l x → Chain mb s l x := by
  intro s l x hch
  induction hch with
  | nil s => exact Chain.nil s
  | cons hc _ ih => exact Chain.cons ((h _).mem_iff.mp hc) ih

theorem chain_suffix {m : NodeMap} {y x : String} {l2 : List String} :
    ∀ (l1 : List String) {s : String}, Chain m s (l1 ++ y :: l2) x →
      Chain m y l2 x := by
  intro l1
  induction l1 with
  | nil =>
    intro s hch
    cases hch with
    | cons hc hrest => exact hrest
  | cons a t ih =>
    intro s hch
    cases hch with
    | cons hc hrest => exact ih hrest

theorem chain_last_aux {m : NodeMap} {s x : String} :
    ∀ (n : Nat) (l : List String), l.length ≤ n → Chain m s l x →
      ∃ l', Chain m s l' x ∧ s ∉ l' ∧ ∀ y ∈ l', y ∈ l := by
  intro n
  induction n with
  | zero =>
    intro l hlen hch
    refine ⟨l, hch, ?_, fun y hy => hy⟩
    have : l = [] := List.eq_nil_of_length_eq_zero (Nat.le_zero.mp hlen)
    subst this
    simp
  | succ n ih =>
    intro l hlen hch
    by_cases hs : s ∈ l
    · obtain ⟨l1, l2, rfl⟩ := List.append_of_mem hs
      have hch2 : Chain m s l2 x := chain_suffix l1 hch
      have hlen2 : l2.length ≤ n := by
        have := hlen
        simp only [List.length_append, List.length_cons] at this
        omega
      obtain ⟨l', hch', hns, hsub⟩ := ih l2 hlen2 hch2
      refine ⟨l', hch', hns, fun y hy => ?_⟩
      have := hsub y hy
      simp [this]
    · exact ⟨l, hch, hs, fun y hy => hy⟩

theorem chain_last {m : NodeMap} {s x : String} {l : List String}
    (hch : Chain m s l x) :
    ∃ l', Chain m s l' x ∧ s ∉ l' ∧ ∀ y ∈ l', y ∈ l :=
  chain_last_aux l.length l (Nat.le_refl _) hch

/-- Folding an option-valued step over a list that contains `c`: if `R` is
carried to `c`, processing `c` from an `R`-state establishes `Q`, and both
`R` and `Q` are preserved by every step, the fold's result satisfies `Q`. -/
theorem foldlM_reach {α β : Type} (step : β → α → Option β) (R Q : β → Prop)
    (c : α)
    (hR : ∀ b a b', R b → step b a = some b' → R b')
    (hQ : ∀ b a b', Q b → step b a = some b' → Q b')
    (hRQ : ∀ b b', R b → step b c = some b' → Q b') :
    ∀ (l : List α) (b b' : β), c ∈ l → R b → l.foldlM step b = some b' →
      Q b' := by
  intro l
  induction l with
  | nil => intro b b' hc; cases hc
  | cons a t ih =>
    intro b b' hc hRb hfold
    rw [List.foldlM_cons] at hfold
    cases hstep : step b a with
    | none => rw [hstep] at hfold; cases hfold
    | some b1 =>
      rw [hstep] at hfold
      simp only [Option.bind_eq_bind, Option.some_bind] at hfold
      rcases List.mem_cons.mp hc with rfl | hct
      · exact foldlM_option_preserve step Q hQ t b1 b' (hRQ b b1 hRb hstep)
          hfold
      · exact ih b1 b' hct (hR b a b1 hRb hstep) hfold

theorem sortF_coverage :
    ∀ (fuel : Nat) (m : NodeMap) (v : List String) (id : String) (m' : NodeMap)
      (pos0 : String → Nat),
      sortTreeNodeChildrenF fuel m v id = some m' →
      (∀ y, posOf m y = pos0 y) →
      ∀ (x : String) (l : List String), Chain m id l x →
        (∀ y, y ∈ id :: l → v.contains y = false) →
        (childrenOf m' x).Pairwise (fun a b => pos0 a ≤ pos0 b) := by
  intro fuel
  induction fuel with
  | zero => intro m v id m' pos0 h; cases h
  | succ f ih =>
    intro m v id m' pos0 h hpos x l hch havoid
    rw [sortF_unfold] at h
    by_cases h1 : (childrenOf m id).isEmpty
    · rw [if_pos h1] at h
      cases h
      cases hch with
      | nil => 
        cases he : childrenOf m id with
        | nil => simp [he]
        | cons a t => rw [he] at h1; simp at h1
      | cons hc hrest =>
        exfalso
        cases he : childrenOf m id with
        | nil => rw [he] at hc; cases hc
        | cons a t => rw [he] at h1; simp at h1
    · rw [if_neg h1] at h
      by_cases h2 : (v.contains id) = true
      · have hfa := havoid id (List.mem_cons_self id l)
        rw [h2] at hfa
        exact Bool.noConfusion hfa
      · rw [if_neg h2] at h
        have he : ∃ e, alistLookup m id = some e := by
          cases hl : alistLookup m id with
          | none => exfalso; apply h1; simp [childrenOf, hl]
          | some e => exact ⟨e, rfl⟩
        obtain ⟨e, he⟩ := he
        have hm1perm : ∀ y, (childrenOf (alistAdjust m id (fun e => { e with children := sortS (fun a b => decide (posOf m a ≤ posOf m b)) (childrenOf m id) })) y).Perm (childrenOf m y) := by
          intro y
          by_cases hy : y = id
          · subst hy
            rw [childrenOf_adjust_self _ _ _ he]
            exact perm_sortS _ _
          · rw [childrenOf_adjust_ne _ _ _ _ hy]
        have hm1pos : ∀ y, posOf (alistAdjust m id (fun e => { e with children := sortS (fun a b => decide (posOf m a ≤ posOf m b)) (childrenOf m id) })) y = pos0 y := by
          intro y
          refine Eq.trans (posOf_adjust_keep m id y _ ?_) (hpos y)
          intro e2
          rfl
        obtain ⟨l', hch', hidl', hsub⟩ := chain_last hch
        cases hch' with
        | nil =>
          have hsorted : (childrenOf (alistAdjust m id (fun e => { e with children := sortS (fun a b => decide (posOf m a ≤ posOf m b)) (childrenOf m id) })) id).Pairwise (fun a b => pos0 a ≤ pos0 b) := by
            rw [childrenOf_adjust_self _ _ _ he]
            exact pairwise_sortS_pos m pos0 hpos _
          refine (foldlM_option_preserve _
            (fun b => (∀ y, posOf b y = pos0 y) ∧
              (childrenOf b id).Pairwise (fun a b => pos0 a ≤ pos0 b))
            ?_ _ _ m' ⟨hm1pos, hsorted⟩ h).2
          intro b a b' hP hs
          refine ⟨fun y => Eq.trans (sortF_pos _ _ _ _ _ hs y) (hP.1 y), ?_⟩
          rcases sortF_sorted_dichotomy _ _ _ _ _ pos0 hs hP.1 id with heq | hso
          · rw [heq]; exact hP.2
          · exact hso
        | cons hc hrest =>
          rename_i cc ll
          have hcmem : cc ∈ sortS (fun a b => decide (posOf m a ≤ posOf m b)) (childrenOf m id) :=
            (mem_sortS _ _ _).mpr hc
          have hccl' : cc ∈ cc :: ll := List.mem_cons_self _ _
          have havoid' : ∀ y, y ∈ cc :: ll → (id :: v).contains y = false := by
            intro y hy
            have hyl : y ∈ l := hsub y hy
            have hyv : v.contains y = false :=
              havoid y (List.mem_cons_of_mem id hyl)
            have hyid : y ≠ id := by
              intro hye
              subst hye
              exact hidl' hy
            simp only [List.contains_cons, Bool.or_eq_false_iff]
            exact ⟨by simpa using hyid, hyv⟩
          refine foldlM_reach _
            (fun b => (∀ y, (childrenOf b y).Perm (childrenOf m y)) ∧
              (∀ y, posOf b y = pos0 y))
            (fun b => (∀ y, posOf b y = pos0 y) ∧
              (childrenOf b x).Pairwise (fun a b => pos0 a ≤ pos0 b))
            cc ?_ ?_ ?_ _ _ m' hcmem ⟨hm1perm, hm1pos⟩ h |>.2
          · intro b a b' hP hs
            refine ⟨fun y => (sortF_perm _ _ _ _ _ hs y).trans (hP.1 y),
              fun y => Eq.trans (sortF_pos _ _ _ _ _ hs y) (hP.2 y)⟩
          · intro b a b' hP hs
            refine ⟨fun y => Eq.trans (sortF_pos _ _ _ _ _ hs y) (hP.1 y), ?_⟩
            rcases sortF_sorted_dichotomy _ _ _ _ _ pos0 hs hP.1 x with heq | hso
            · rw [heq]; exact hP.2
            · exact hso
          · intro b b' hP hs
            have hchb : Chain b cc ll x :=
              chain_congr (fun y => (hP.1 y).symm) hrest
            refine ⟨fun y => Eq.trans (sortF_pos _ _ _ _ _ hs y) (hP.2 y), ?_⟩
            exact ih _ _ _ _ pos0 hs hP.2 x ll hchb havoid'

/-! ### Inversion facts for `sortTreesByPosition` -/

theorem sortTrees_eq (r : BuildResult) :
    sortTreesByPosition r =
      match List.foldlM
          (fun (m : NodeMap) (t : TreeDataM) =>
            sortTreeNodeChildrenF (m.length + 2) m [] t.rootId)
          r.nodesById
          (sortS (fun a b => decide (a.position ≤ b.position)) r.trees) with
      | some m => some { trees := sortS (fun a b => decide (a.position ≤ b.position)) r.trees, nodesById := m, rootIds := r.rootIds, processed := r.processed, nodeHasParent := r.nodeHasParent, nodeHasChildren := r.nodeHasChildren }
      | none => none := rfl

theorem sortTrees_some_inv (r res : BuildResult)
    (h : sortTreesByPosition r = some res) :
    res.trees = sortS (fun a b => decide (a.position ≤ b.position)) r.trees ∧
    (∀ y, (childrenOf res.nodesById y).Perm (childrenOf r.nodesById y)) ∧
    (∀ y, posOf res.nodesById y = posOf r.nodesById y) := by
  rw [sortTrees_eq] at h
  cases hf : List.foldlM
      (fun (m : NodeMap) (t : TreeDataM) =>
        sortTreeNodeChildrenF (m.length + 2) m [] t.rootId)
      r.nodesById
      (sortS (fun a b => decide (a.position ≤ b.position)) r.trees) with
  | none => rw [hf] at h; cases h
  | some m =>
    rw [hf] at h
    cases h
    refine ⟨rfl, ?_, ?_⟩
    · exact foldlM_option_preserve _
        (fun b => ∀ y, (childrenOf b y).Perm (childrenOf r.nodesById y))
        (fun b a b' hP hs y => (sortF_perm _ _ _ _ _ hs y).trans (hP y))
        _ _ _ (fun y => List.Perm.refl _) hf
    · exact foldlM_option_preserve _
        (fun b => ∀ y, posOf b y = posOf r.nodesById y)
        (fun b a b' hP hs y => Eq.trans (sortF_pos _ _ _ _ _ hs y) (hP y))
        _ _ _ (fun y => rfl) hf

theorem sortTrees_some_fold (r res : BuildResult)
    (h : sortTreesByPosition r = some res) :
    List.foldlM
      (fun (m : NodeMap) (t : TreeDataM) =>
        sortTreeNodeChildrenF (m.length + 2) m [] t.rootId)
      r.nodesById
      (sortS (fun a b => decide (a.position ≤ b.position)) r.trees) =
      some res.nodesById := by
  rw [sortTrees_eq] at h
  cases hf : List.foldlM
      (fun (m : NodeMap) (t : TreeDataM) =>
        sortTreeNodeChildrenF (m.length + 2) m [] t.rootId)
      r.nodesById
      (sortS (fun a b => decide (a.position ≤ b.position)) r.trees) with
  | none => rw [hf] at h; cases h
  | some m =>
    rw [hf] at h
    cases h
    rfl

/-! ### Totality and transitivity of the root comparator -/

theorem rootLE_total (m : NodeMap) (a b : String)
    (h : rootLE m a b = false) : rootLE m b a = true := by
  unfold rootLE at h ⊢
  cases hsa : standaloneOf m a <;> cases hsb : standaloneOf m b <;>
    simp_all <;> omega

theorem rootLE_trans (m : NodeMap) (a b c : String)
    (hab : rootLE m a b = true) (hbc : rootLE m b c = true) :
    rootLE m a c = true := by
  unfold rootLE at hab hbc ⊢
  cases hsa : standaloneOf m a <;> cases hsb : standaloneOf m b <;>
    cases hsc : standaloneOf m c <;> simp_all <;> omega

/-! ### C3: cycle safety of `buildTree` + `sortTreesByPosition` -/

/-- The collection contains a two-node mutual parent cycle (claim C3's
"record A's parentId is B and record B's parentId is A"). -/
def hasTwoCycle (c : NodeCollection) : Bool :=
  c.nodes.any (fun a => c.nodes.any (fun b =>
    a.parentId == b.id && b.parentId == a.id && !(a.id == b.id)))

/-- The collection contains a three-node parent cycle. -/
def hasThreeCycle (c : NodeCollection) : Bool :=
  c.nodes.any (fun a => c.nodes.any (fun b => c.nodes.any (fun d =>
    a.parentId == b.id && b.parentId == d.id && d.parentId == a.id &&
    !(a.id == b.id) && !(b.id == d.id) && !(a.id == d.id))))

/-- Scope collection with a three-node parent cycle A→B→C→A plus a second
record reusing the id "A": the duplicate smuggles a children-link cycle into
the returned forest. -/
def cyc4 : NodeCollection := { nodes := [
  { id := "A", parentId := "B", label := "", fromPos := 0, toPos := 1 },
  { id := "B", parentId := "C", label := "", fromPos := 1, toPos := 2 },
  { id := "C", parentId := "A", label := "", fromPos := 2, toPos := 3 },
  { id := "A", parentId := "root", label := "", fromPos := 3, toPos := 4 }] }

/-- Scope collection with pairwise-distinct ids forming a two-node mutual
parent cycle. -/
def c3w : NodeCollection := { nodes := [
  { id := "A", parentId := "B", label := "", fromPos := 0, toPos := 1 },
  { id := "B", parentId := "A", label := "", fromPos := 1, toPos := 2 }] }

/-- **C3 (amended: pairwise-distinct ids).**  On a collection with
pairwise-distinct ids that contains a two- or three-node parent cycle,
`buildTree` followed by `sortTreesByPosition` terminates (returns `some`),
and in the returned forest no node reachable from a tree root is its own
descendant along children links. -/
theorem c3_cycle_input_safe (c : NodeCollection)
    (huniq : (c.nodes.map NodeSyntaxData.id).Nodup)
    (_hcyc : hasTwoCycle c = true ∨ hasThreeCycle c = true) :
    ∃ res, sortTreesByPosition (buildTree c) = some res ∧
      ∀ t ∈ res.trees, ∀ x,
        Relation.ReflTransGen (StepRel res.nodesById) t.rootId x →
        ¬ Relation.TransGen (StepRel res.nodesById) x x := by
  obtain ⟨res, hres⟩ := sortTreesByPosition_isSome (buildTree c)
  refine ⟨res, hres, ?_⟩
  obtain ⟨htrees, hperm, hpos⟩ := sortTrees_some_inv _ _ hres
  intro t ht x hreach hcycle
  have ht' : t ∈ (buildTree c).trees := by
    rw [htrees] at ht
    exact (mem_sortS _ _ _).mp ht
  have hmono : ∀ a b, StepRel res.nodesById a b →
      StepRel (buildTree c).nodesById a b :=
    fun a b hab => (hperm a).mem_iff.mp hab
  exact buildTree_acyclic c huniq t ht' x
    (Relation.ReflTransGen.mono hmono hreach)
    (Relation.TransGen.mono hmono hcycle)

/-- **C3, counterexample to the unamended claim.**  `cyc4` contains a
three-node parent cycle, yet because the id "A" occurs twice the returned
(sorted) forest has a root from which a node reachable from the root is its
own strict descendant: A → C → B → A along children links. -/
theorem c3_counterexample_duplicate_id_cycle :
    hasThreeCycle cyc4 = true ∧
    ∃ res, sortTreesByPosition (buildTree cyc4) = some res ∧
      ∃ t, t ∈ res.trees ∧
        Relation.ReflTransGen (StepRel res.nodesById) t.rootId "A" ∧
        Relation.TransGen (StepRel res.nodesById) "A" "A" := by
  refine ⟨by decide,
    (sortTreesByPosition (buildTree cyc4)).get (by decide),
    (Option.some_get _).symm,
    ⟨"A", 3, none, none, false⟩, by decide, Relation.ReflTransGen.refl, ?_⟩
  have s1 : StepRel ((sortTreesByPosition (buildTree cyc4)).get
      (by decide)).nodesById "A" "C" := by unfold StepRel; decide
  have s2 : StepRel ((sortTreesByPosition (buildTree cyc4)).get
      (by decide)).nodesById "C" "B" := by unfold StepRel; decide
  have s3 : StepRel ((sortTreesByPosition (buildTree cyc4)).get
      (by decide)).nodesById "B" "A" := by unfold StepRel; decide
  exact Relation.TransGen.head s1
    (Relation.TransGen.head s2 (Relation.TransGen.single s3))

/-- Witness: the amended C3 theorem applied to the concrete distinct-id
two-cycle collection `c3w`. -/
theorem c3_witness :
    ((c3w.nodes.map NodeSyntaxData.id).Nodup ∧ hasTwoCycle c3w = true) ∧
    (∃ res, sortTreesByPosition (buildTree c3w) = some res ∧
      ∀ t ∈ res.trees, ∀ x,
        Relation.ReflTransGen (StepRel res.nodesById) t.rootId x →
        ¬ Relation.TransGen (StepRel res.nodesById) x x) :=
  ⟨⟨by decide, by decide⟩,
    c3_cycle_input_safe c3w (by decide) (Or.inl (by decide))⟩

/-! ### C9: root ordering and recursive child sorting -/

/-- Root scope used to witness C9: root R with children B (position 5) and
C (position 3), initially attached in the order [B, C]. -/
def w9 : NodeCollection := { nodes := [
  { id := "R", parentId := "root", label := "", fromPos := 0, toPos := 1 },
  { id := "B", parentId := "R", label := "", fromPos := 5, toPos := 6 },
  { id := "C", parentId := "R", label := "", fromPos := 3, toPos := 4 }] }

/-- **C9.**  (1) In the forest returned by `buildTree`, along the root list
every standalone tree follows every non-standalone tree, and two roots of the
same kind appear in ascending order of position.  (2) After
`sortTreesByPosition`, every node reachable from a returned tree root by
descending children links has its children array sorted by position
ascending. -/
theorem c9_root_order_and_children_sorted (c : NodeCollection) :
    (buildTree c).trees.Pairwise (fun t1 t2 =>
      (t1.isStandaloneTree = true → t2.isStandaloneTree = true) ∧
      (t1.isStandaloneTree = t2.isStandaloneTree → t1.position ≤ t2.position)) ∧
    (∀ res, sortTreesByPosition (buildTree c) = some res →
      ∀ t ∈ res.trees, ∀ l x, Chain res.nodesById t.rootId l x →
        (childrenOf res.nodesById x).Pairwise
          (fun a b => posOf res.nodesById a ≤ posOf res.nodesById b)) := by
  constructor
  · have htrees : (buildTree c).trees = (buildRoots c).map (fun r =>
        { rootId := r
          position := posOf (buildState3 c).nodesById r
          paragraphStart := c.paragraphStart
          paragraphEnd := c.paragraphEnd
          isStandaloneTree := standaloneOf (buildState3 c).nodesById r }) := rfl
    rw [htrees]
    rw [List.pairwise_map]
    have hs := sorted_sortS (rootLE (buildState3 c).nodesById)
      (rootLE_total _) (rootLE_trans _) (buildState3 c).rootIds
    refine hs.imp ?_
    intro a b hab
    refine ⟨?_, ?_⟩
    · intro hsa
      have hsa' : standaloneOf (buildState3 c).nodesById a = true := hsa
      show standaloneOf (buildState3 c).nodesById b = true
      unfold rootLE at hab
      rw [hsa'] at hab
      cases hsb : standaloneOf (buildState3 c).nodesById b
      · rw [hsb] at hab
        simp at hab
      · rfl
    · intro hsame
      have hsame' : standaloneOf (buildState3 c).nodesById a =
          standaloneOf (buildState3 c).nodesById b := hsame
      show posOf (buildState3 c).nodesById a ≤ posOf (buildState3 c).nodesById b
      unfold rootLE at hab
      rw [hsame'] at hab
      cases hsb : standaloneOf (buildState3 c).nodesById b <;>
        rw [hsb] at hab <;> simpa using hab
  · intro res hres t ht l x hch
    obtain ⟨htrees, hperm, hpos⟩ := sortTrees_some_inv _ _ hres
    have hfold := sortTrees_some_fold _ _ hres
    have htl : t ∈ sortS (fun a b => decide (a.position ≤ b.position))
        (buildTree c).trees := by rw [← htrees]; exact ht
    have hch0 : Chain (buildTree c).nodesById t.rootId l x :=
      chain_congr hperm hch
    have hQ := foldlM_reach
      (fun (m : NodeMap) (t : TreeDataM) =>
        sortTreeNodeChildrenF (m.length + 2) m [] t.rootId)
      (fun b => (∀ y, (childrenOf b y).Perm
          (childrenOf (buildTree c).nodesById y)) ∧
        (∀ y, posOf b y = posOf (buildTree c).nodesById y))
      (fun b => (∀ y, posOf b y = posOf (buildTree c).nodesById y) ∧
        (childrenOf b x).Pairwise (fun a b =>
          posOf (buildTree c).nodesById a ≤ posOf (buildTree c).nodesById b))
      t
      (fun b a b' hP hs =>
        ⟨fun y => (sortF_perm _ _ _ _ _ hs y).trans (hP.1 y),
         fun y => Eq.trans (sortF_pos _ _ _ _ _ hs y) (hP.2 y)⟩)
      (fun b a b' hP hs => by
        refine ⟨fun y => Eq.trans (sortF_pos _ _ _ _ _ hs y) (hP.1 y), ?_⟩
        rcases sortF_sorted_dichotomy _ _ _ _ _ _ hs hP.1 x with heq | hso
        · rw [heq]; exact hP.2
        · exact hso)
      (fun b b' hP hs => by
        refine ⟨fun y => Eq.trans (sortF_pos _ _ _ _ _ hs y) (hP.2 y), ?_⟩
        exact sortF_coverage _ _ _ _ _ _ hs hP.2 x l
          (chain_congr (fun y => (hP.1 y).symm) hch0)
          (fun y _ => rfl))
      _ _ _ htl
      ⟨fun y => List.Perm.refl _, fun y => rfl⟩
      hfold
    refine hQ.2.imp ?_
    intro a b hab
    rw [hpos a, hpos b]
    exact hab

/-- Witness: C9 applied to `w9`; the root's children come back position
sorted in the returned forest. -/
theorem c9_witness :
    ∃ res, sortTreesByPosition (buildTree w9) = some res ∧
      (childrenOf res.nodesById "R").Pairwise
        (fun a b => posOf res.nodesById a ≤ posOf res.nodesById b) :=
  ⟨(sortTreesByPosition (buildTree w9)).get (by decide),
    (Option.some_get _).symm,
    (c9_root_order_and_children_sorted w9).2 _ (Option.some_get _).symm
      ⟨"R", 0, none, none, false⟩ (by decide) [] "R" (Chain.nil "R")⟩

/-! ### Arrow-side embedding (`src/src/utils.ts` lines 498-770)

`buildArrowHierarchy` deep-clones its input, so the embedding is a pure
function on lists.  Objects mutated in place through references held by the
bucket groups are modelled by lists of *indices* into the collection list,
with point updates (`listModify`).  Only the fields the hierarchy code reads
are carried: `ArrowIdentifierData` keeps just `track`, and
`ArrowIdentifierPosData` keeps the `from`/`to` offsets (renamed `fromPos`
and `toPos` since `from` is a Lean keyword).  Offsets and tracks are
modelled as `Int`; `Math.floor(track / 5) * 5` is `Int.fdiv track 5 * 5`.
The thirds test of `determineConnectionPoint` (`childPos <= topEnd.from +
totalDistance / 3`) is scaled by 3 to the exact integer comparison
`3 * childPos ≤ 3 * topEnd.from + totalDistance`; over the rationals this is
an equivalence, and for document-sized integer offsets the JS double
rounding of `totalDistance / 3` cannot flip the comparison because the gap
between an integer and a non-representable third is at least 1/3 up to
floating error.  JS truthiness of `hierarchy?.parentId` (undefined and `""`
are both falsy) is `truthyStr`. -/

inductive ConnectionPoint where
  | TOP
  | MIDDLE
  | BOTTOM
deriving DecidableEq, Repr

structure ArrowIdentifierData where
  track : Option Int := none
deriving DecidableEq, Repr

structure ArrowIdentifierPosData where
  fromPos : Int
  toPos : Int := 0
  arrowData : ArrowIdentifierData
deriving DecidableEq, Repr

structure HierarchyInfo where
  level : Int
  parentId : Option String := none
  childIds : List String
  connectionPoint : Option ConnectionPoint := none
  isJunction : Bool
deriving DecidableEq, Repr

structure ArrowIdentifierCollection where
  identifier : String
  start : Option ArrowIdentifierPosData := none
  ends : List ArrowIdentifierPosData := []
  hierarchy : Option HierarchyInfo := none
deriving DecidableEq, Repr

def listModify {α : Type} (l : List α) (i : Nat) (f : α → α) : List α :=
  match l, i with
  | [], _ => []
  | a :: t, 0 => f a :: t
  | a :: t, n+1 => a :: listModify t n f

def modHier (cs : List ArrowIdentifierCollection) (i : Nat)
    (f : HierarchyInfo → HierarchyInfo) : List ArrowIdentifierCollection :=
  listModify cs i (fun c => { c with hierarchy := c.hierarchy.map f })

def areArrowsAligned (child parent : ArrowIdentifierCollection) : Bool :=
  match child.start, parent.start with
  | some cst, some pst =>
    let trackDifference :=
      (cst.arrowData.track.getD 0 - pst.arrowData.track.getD 0).natAbs
    let verticalDistance := (cst.fromPos - pst.fromPos).natAbs
    if trackDifference == 0 then decide (verticalDistance < 1000)
    else if trackDifference ≤ 3 then decide (verticalDistance < 500)
    else false
  | _, _ => false

def nearestEndIdx (ends : List Int) (childPos : Int) : Nat :=
  (ends.enum.foldl (fun acc e =>
    if |e.2 - childPos| < acc.2 then (e.1, |e.2 - childPos|) else acc)
    (0, (9007199254740991 : Int))).1

def determineConnectionPoint (child parent : ArrowIdentifierCollection) :
    ConnectionPoint :=
  match child.start, parent.start with
  | some cst, some _ =>
    if parent.ends.isEmpty then ConnectionPoint.MIDDLE
    else
      let sortedEnds := sortS (fun a b => decide (a.fromPos ≤ b.fromPos))
        parent.ends
      let childPos := cst.fromPos
      match sortedEnds with
      | [topEnd, bottomEnd] =>
        let totalDistance := bottomEnd.fromPos - topEnd.fromPos
        if 3 * childPos ≤ 3 * topEnd.fromPos + totalDistance then
          ConnectionPoint.TOP
        else if 3 * childPos ≥ 3 * bottomEnd.fromPos - totalDistance then
          ConnectionPoint.BOTTOM
        else ConnectionPoint.MIDDLE
      | _ :: _ :: _ :: _ =>
        let idx := nearestEndIdx (sortedEnds.map (fun e => e.fromPos)) childPos
        if idx == 0 then ConnectionPoint.TOP
        else if idx == sortedEnds.length - 1 then ConnectionPoint.BOTTOM
        else ConnectionPoint.MIDDLE
      | _ => ConnectionPoint.MIDDLE
  | _, _ => ConnectionPoint.MIDDLE

def initHierarchy (cs : List ArrowIdentifierCollection) :
    List ArrowIdentifierCollection :=
  cs.map (fun c =>
    { c with hierarchy := some { level := 0, childIds := [], isJunction := false } })

def intGroupUpsert (m : List (Int × List Nat)) (k : Int) (i : Nat) :
    List (Int × List Nat) :=
  match m with
  | [] => [(k, [i])]
  | (k', l) :: rest =>
    if k' == k then (k', l ++ [i]) :: rest else (k', l) :: intGroupUpsert rest k i

def trackGroups (cs : List ArrowIdentifierCollection) : List (Int × List Nat) :=
  cs.enum.foldl (fun acc (ic : Nat × ArrowIdentifierCollection) =>
    match ic.2.start with
    | none => acc
    | some s => intGroupUpsert acc (Int.fdiv (s.arrowData.track.getD 0) 5 * 5) ic.1)
    []

def startKey (cs : List ArrowIdentifierCollection) (i : Nat) : Int :=
  (((cs.get? i).bind (fun c => c.start)).map (fun s => s.fromPos)).getD 0

def bracketGroups (cs : List ArrowIdentifierCollection) : List (List Nat) :=
  (trackGroups cs).filterMap (fun kv =>
    if kv.2.length > 1 then
      some (sortS (fun i j => decide (startKey cs i ≤ startKey cs j)) kv.2)
    else none)

def groupChildStep (r : Nat) (cs : List ArrowIdentifierCollection) (i : Nat) :
    List ArrowIdentifierCollection :=
  match cs.get? r, cs.get? i with
  | some rootC, some cur =>
    let cs1 := modHier cs i (fun h =>
      { h with parentId := some rootC.identifier, level := 1,
               connectionPoint := some (determineConnectionPoint cur rootC) })
    modHier cs1 r (fun h => { h with childIds := h.childIds ++ [cur.identifier] })
  | _, _ => cs

def applyGroup (cs : List ArrowIdentifierCollection) (g : List Nat) :
    List ArrowIdentifierCollection :=
  match g with
  | [] => cs
  | r :: rest =>
    let cs1 := modHier cs r (fun h =>
      { h with level := 0, isJunction := decide (g.length > 1) })
    rest.foldl (groupChildStep r) cs1

def pass1 (cs : List ArrowIdentifierCollection) : List ArrowIdentifierCollection :=
  (bracketGroups cs).foldl (fun acc g => if g.length ≤ 1 then acc else applyGroup acc g) cs

def truthyStr : Option String → Bool
  | none => false
  | some s => !(s == "")

/-- Body of the attach branch of the cross-track pass: set `cur`'s parent
link to `pot`, append `cur` to `pot`'s children and re-check the junction
flag against the updated list (the JS reads `childIds.length` after the
`push`). -/
def pass2Attach (cs : List ArrowIdentifierCollection) (i j : Nat)
    (cur pot : ArrowIdentifierCollection) : List ArrowIdentifierCollection :=
  let newLevel := ((pot.hierarchy.map (fun h => h.level)).getD 0) + 1
  let cs1 := modHier cs i (fun h =>
    { h with parentId := some pot.identifier, level := newLevel,
             connectionPoint := some (determineConnectionPoint cur pot) })
  let cs2 := modHier cs1 j (fun h =>
    { h with childIds := h.childIds ++ [cur.identifier] })
  if decide ((((cs2.get? j).bind (fun c => c.hierarchy)).map
      (fun h => h.childIds.length)).getD 0 > 1) then
    modHier cs2 j (fun h => { h with isJunction := true })
  else cs2

def pass2Inner (i : Nat) :
    List ArrowIdentifierCollection → List Nat → List ArrowIdentifierCollection
  | cs, [] => cs
  | cs, j :: js =>
    if i == j then pass2Inner i cs js
    else
      match cs.get? i, cs.get? j with
      | some cur, some pot =>
        if (pot.hierarchy.map (fun h => h.childIds.contains cur.identifier)).getD false then
          pass2Inner i cs js
        else if !((pot.hierarchy.map (fun h => h.isJunction)).getD false) &&
            decide (((pot.hierarchy.map (fun h => h.childIds.length)).getD 0) > 0) then
          pass2Inner i cs js
        else if areArrowsAligned cur pot then
          pass2Attach cs i j cur pot
        else pass2Inner i cs js
      | _, _ => pass2Inner i cs js

def pass2Outer :
    List ArrowIdentifierCollection → List Nat → List ArrowIdentifierCollection
  | cs, [] => cs
  | cs, i :: is =>
    if truthyStr (((cs.get? i).bind (fun c => c.hierarchy)).bind (fun h => h.parentId)) then
      pass2Outer cs is
    else
      pass2Outer (pass2Inner i cs (List.range cs.length)) is

/-- The parent link `detectCycle` actually follows: the first collection whose
identifier matches, its `hierarchy?.parentId`, filtered through JS truthiness
(an empty-string parent id is falsy and treated as absent). -/
def liveParent (cs : List ArrowIdentifierCollection) (x : String) : Option String :=
  match ((cs.find? (fun c => c.identifier == x)).bind (fun c => c.hierarchy)).bind
      (fun h => h.parentId) with
  | none => none
  | some p => if p == "" then none else some p

/-- The raw parent link of the output (what the spec's reader follows):
`hierarchy.parentId` of the first collection whose identifier matches. -/
def rawParent (cs : List ArrowIdentifierCollection) (x : String) : Option String :=
  ((cs.find? (fun c => c.identifier == x)).bind (fun c => c.hierarchy)).bind
    (fun h => h.parentId)

def severParent (cs : List ArrowIdentifierCollection) (x : String) :
    List ArrowIdentifierCollection :=
  match cs with
  | [] => []
  | c :: t =>
    if c.identifier == x then
      { c with hierarchy := c.hierarchy.map (fun h =>
          { h with parentId := none, level := 0 }) } :: t
    else c :: severParent t x

structure VState where
  cols : List ArrowIdentifierCollection
  visited : List String
  stack : List String
deriving DecidableEq, Repr

/-- `detectCycle` of `validateHierarchy`, with explicit fuel (the lemmas
below show `cols.length + 1` is never exhausted).  On the cycle branch the JS
code, after clearing `collection.hierarchy.parentId`, looks the former parent
up by the now-`undefined` `collection.hierarchy.parentId`, so the
`childIds.splice` cleanup never runs: severing only rewrites the offending
collection (see C8).  `return true` paths skip `recursionStack.delete(id)`,
which is modelled faithfully: the stack is only restored on `false` paths. -/
def detectCycleF : Nat → VState → String → VState × Bool
  | 0, s, _ => (s, false)
  | fuel+1, s, x =>
    if s.visited.contains x then (s, false)
    else
      let s1 : VState :=
        { cols := s.cols, visited := x :: s.visited, stack := x :: s.stack }
      match liveParent s1.cols x with
      | none => ({ s1 with stack := s1.stack.erase x }, false)
      | some p =>
        if s1.visited.contains p then
          if s1.stack.contains p then
            ({ s1 with cols := severParent s1.cols x }, true)
          else
            ({ s1 with stack := s1.stack.erase x }, false)
        else
          match detectCycleF fuel s1 p with
          | (s2, true) => (s2, true)
          | (s2, false) => ({ s2 with stack := s2.stack.erase x }, false)

def validateHierarchy (cs : List ArrowIdentifierCollection) :
    List ArrowIdentifierCollection :=
  ((cs.map (fun c => c.identifier)).foldl (fun (s : VState) (i : String) =>
    if s.visited.contains i then s else (detectCycleF (s.cols.length + 1) s i).1)
    { cols := cs, visited := [], stack := [] }).cols

def buildArrowHierarchy (cs : List ArrowIdentifierCollection) :
    List ArrowIdentifierCollection :=
  let c1 := initHierarchy cs
  let c2 := pass1 c1
  let c3 := pass2Outer c2 (List.range c2.length)
  validateHierarchy c3

/-- Iterated raw parent following (the claim's "repeatedly following
`hierarchy.parentId`"). -/
def pRawIter (cs : List ArrowIdentifierCollection) : Nat → String → Option String
  | 0, x => some x
  | k+1, x => (rawParent cs x).bind (pRawIter cs k)

/-- Iterated live (truthiness-filtered) parent following. -/
def pLiveIter (cs : List ArrowIdentifierCollection) : Nat → String → Option String
  | 0, x => some x
  | k+1, x => (liveParent cs x).bind (pLiveIter cs k)

/-! ### C7: the alignment test uses the raw track difference, not buckets -/

/-- Amended characterization of `areArrowsAligned` (claim C7 corrected): with
`Δ` the *raw* absolute track difference and `d` the absolute start-offset
distance, arrows are aligned iff `Δ = 0 ∧ d < 1000` or `0 < Δ ≤ 3 ∧ d < 500`.
The claimed bucket quantities (`floor(track/5)*5`) never enter the test. -/
def amendedAligned (cst pst : ArrowIdentifierPosData) : Bool :=
  let d1 := (cst.arrowData.track.getD 0 - pst.arrowData.track.getD 0).natAbs
  let d2 := (cst.fromPos - pst.fromPos).natAbs
  (d1 == 0 && decide (d2 < 1000)) ||
    (decide (0 < d1) && decide (d1 ≤ 3) && decide (d2 < 500))

/-- **C7 (amended).**  When both connectors have start endpoints, the code's
alignment test agrees with `amendedAligned`: thresholds are keyed to the raw
track difference (0 → 1000, 1..3 → 500, else never), not to track buckets. -/
theorem c7_alignment_raw_track_thresholds
    (child parent : ArrowIdentifierCollection)
    (cst pst : ArrowIdentifierPosData)
    (hc : child.start = some cst) (hp : parent.start = some pst) :
    areArrowsAligned child parent = amendedAligned cst pst := by
  unfold areArrowsAligned amendedAligned
  rw [hc, hp]
  show (if (cst.arrowData.track.getD 0 - pst.arrowData.track.getD 0).natAbs == 0 then decide ((cst.fromPos - pst.fromPos).natAbs < 1000) else if (cst.arrowData.track.getD 0 - pst.arrowData.track.getD 0).natAbs ≤ 3 then decide ((cst.fromPos - pst.fromPos).natAbs < 500) else false) = _
  by_cases h0 : (cst.arrowData.track.getD 0 - pst.arrowData.track.getD 0).natAbs = 0
  · simp [h0]
  · by_cases h3 : (cst.arrowData.track.getD 0 - pst.arrowData.track.getD 0).natAbs ≤ 3
    · simp [h0, h3, Nat.pos_of_ne_zero h0]
    · simp [h0, h3]

def c7child : ArrowIdentifierCollection :=
  { identifier := "c",
    start := some { fromPos := 0, arrowData := { track := some 1 } } }

def c7parent : ArrowIdentifierCollection :=
  { identifier := "p",
    start := some { fromPos := 700, arrowData := { track := some 2 } } }

/-- **C7, counterexample to the unamended claim.**  Tracks 1 and 2 fall in
the same bucket (`floor(t/5)*5 = 0` for both) and the start distance 700 is
below the generous threshold 1000, yet the code does not consider the arrows
aligned: it applies the strict 500 threshold because the raw track difference
is 1, not 0. -/
theorem c7_counterexample_same_bucket_not_aligned :
    Int.fdiv 1 5 * 5 = Int.fdiv 2 5 * 5 ∧
    ((0 : Int) - 700).natAbs < 1000 ∧
    areArrowsAligned c7child c7parent = false := by decide

/-- Witness: the amended C7 theorem applied to the concrete pair
`c7child`/`c7parent`. -/
theorem c7_witness :
    (c7child.start = some { fromPos := 0, arrowData := { track := some 1 } } ∧
      c7parent.start = some { fromPos := 700, arrowData := { track := some 2 } }) ∧
    areArrowsAligned c7child c7parent =
      amendedAligned { fromPos := 0, arrowData := { track := some 1 } }
        { fromPos := 700, arrowData := { track := some 2 } } :=
  ⟨⟨rfl, rfl⟩, c7_alignment_raw_track_thresholds c7child c7parent _ _ rfl rfl⟩

/-! ### C8: severing a cycle leaves a stale childIds entry -/

def mkC8 (idn : String) (track frm : Int) : ArrowIdentifierCollection :=
  { identifier := idn,
    start := some { fromPos := frm, arrowData := { track := some track } },
    ends := [] }

/-- Two connectors on the same track 10 offset units apart: pass 1 makes "x"
the bracket root of "y", pass 2 then attaches "x" under "y", creating a
mutual cycle that the repair pass must sever. -/
def c8pair : List ArrowIdentifierCollection := [mkC8 "x" 0 0, mkC8 "y" 0 10]

/-- **C8.**  Evaluating the embedding at the failing input: after
`buildArrowHierarchy`, connector "x" still lists "y" in `childIds` while
"y"'s `parentId` was severed to `none` — the claimed reciprocity (every
childIds entry has a parentId pointing back) is violated, because the repair
pass looks the former parent up by `collection.hierarchy.parentId` *after*
clearing it, so the childIds cleanup never runs. -/
theorem c8_sever_leaves_stale_childIds :
    ((buildArrowHierarchy c8pair).get? 0).map (fun c => c.identifier) = some "x" ∧
    (((buildArrowHierarchy c8pair).get? 0).bind (fun c => c.hierarchy)).map
      (fun h => h.childIds) = some ["y"] ∧
    ((buildArrowHierarchy c8pair).get? 1).map (fun c => c.identifier) = some "y" ∧
    (((buildArrowHierarchy c8pair).get? 1).bind (fun c => c.hierarchy)).bind
      (fun h => h.parentId) = none := by decide

/-! ### C2: machinery for the cycle-repair correctness proof -/

def idsOf (cs : List ArrowIdentifierCollection) : List String :=
  cs.map (fun c => c.identifier)

/-- `x` lies on a `liveParent` cycle of `cs`. -/
def CycL (cs : List ArrowIdentifierCollection) (x : String) : Prop :=
  ∃ k, 0 < k ∧ pLiveIter cs k x = some x

theorem pLiveIter_add (cs : List ArrowIdentifierCollection) (a b : Nat)
    (x : String) :
    pLiveIter cs (a + b) x = (pLiveIter cs a x).bind (pLiveIter cs b) := by
  induction a generalizing x with
  | zero => simp [pLiveIter]
  | succ a ih =>
    have hL : pLiveIter cs (a + 1 + b) x =
        (liveParent cs x).bind (pLiveIter cs (a + b)) := by
      have : a + 1 + b = (a + b) + 1 := by omega
      rw [this]
      rfl
    rw [hL]
    have hR : pLiveIter cs (a + 1) x =
        (liveParent cs x).bind (pLiveIter cs a) := rfl
    rw [hR]
    cases liveParent cs x with
    | none => rfl
    | some y =>
      simp only [Option.some_bind]
      exact ih y

theorem cycL_none {cs : List ArrowIdentifierCollection} {x : String}
    (h : liveParent cs x = none) : ¬ CycL cs x := by
  rintro ⟨k, hk, hit⟩
  cases k with
  | zero => omega
  | succ m =>
    have : pLiveIter cs (m + 1) x = (liveParent cs x).bind (pLiveIter cs m) := rfl
    rw [this, h] at hit
    cases hit

theorem cycL_shift {cs : List ArrowIdentifierCollection} {x p : String}
    (hlp : liveParent cs x = some p) (h : CycL cs x) : CycL cs p := by
  obtain ⟨k, hk, hit⟩ := h
  cases k with
  | zero => omega
  | succ m =>
    refine ⟨m + 1, Nat.succ_pos m, ?_⟩
    have h1 : pLiveIter cs (m + 1) x = (liveParent cs x).bind (pLiveIter cs m) := rfl
    rw [h1, hlp] at hit
    simp only [Option.some_bind] at hit
    have h2 : pLiveIter cs (m + 1) p = (pLiveIter cs m p).bind (pLiveIter cs 1) := by
      have : m + 1 = m + 1 := rfl
      rw [pLiveIter_add cs m 1 p]
    rw [h2, hit]
    simp only [Option.some_bind]
    have h3 : pLiveIter cs 1 x = (liveParent cs x).bind (pLiveIter cs 0) := rfl
    rw [h3, hlp]
    rfl

theorem pLiveIter_mono {cs' cs : List ArrowIdentifierCollection}
    (hE : ∀ y, liveParent cs' y = liveParent cs y ∨ liveParent cs' y = none) :
    ∀ (k : Nat) (x v : String), pLiveIter cs' k x = some v →
      pLiveIter cs k x = some v := by
  intro k
  induction k with
  | zero => intro x v h; exact h
  | succ m ih =>
    intro x v h
    have h1 : pLiveIter cs' (m + 1) x = (liveParent cs' x).bind (pLiveIter cs' m) := rfl
    rw [h1] at h
    cases hlp : liveParent cs' x with
    | none => rw [hlp] at h; cases h
    | some y =>
      rw [hlp] at h
      simp only [Option.some_bind] at h
      have h2 : pLiveIter cs (m + 1) x = (liveParent cs x).bind (pLiveIter cs m) := rfl
      rcases hE x with he | he
      · rw [h2, ← he, hlp]
        simp only [Option.some_bind]
        exact ih y v h
      · rw [hlp] at he; cases he

theorem cycL_mono {cs' cs : List ArrowIdentifierCollection}
    (hE : ∀ y, liveParent cs' y = liveParent cs y ∨ liveParent cs' y = none)
    {x : String} (h : CycL cs' x) : CycL cs x := by
  obtain ⟨k, hk, hit⟩ := h
  exact ⟨k, hk, pLiveIter_mono hE k x x hit⟩

theorem pLiveIter_isSome_of_cyc {cs : List ArrowIdentifierCollection}
    {x : String} {k : Nat} (hk : 0 < k) (hcyc : pLiveIter cs k x = some x) :
    ∀ n, (pLiveIter cs n x).isSome := by
  have hmul : ∀ q, pLiveIter cs (q * k) x = some x := by
    intro q
    induction q with
    | zero => rw [Nat.zero_mul]; rfl
    | succ q ih =>
      have : (q + 1) * k = q * k + k := by ring
      rw [this, pLiveIter_add, ih]
      simpa using hcyc
  intro n
  have hle : n ≤ n * k := Nat.le_mul_of_pos_right n hk
  obtain ⟨r, hr⟩ := Nat.exists_eq_add_of_le hle
  have := hmul n
  rw [hr, pLiveIter_add] at this
  cases hit : pLiveIter cs n x with
  | none => rw [hit] at this; cases this
  | some v => rfl

theorem find?_ident_cons (c : ArrowIdentifierCollection)
    (t : List ArrowIdentifierCollection) (x : String) :
    (c :: t).find? (fun c => c.identifier == x) =
      if c.identifier == x then some c
      else t.find? (fun c => c.identifier == x) := by
  rw [List.find?_cons]
  cases h : (c.identifier == x) with
  | false => simp [h]
  | true => simp [h]

theorem severParent_idsOf (cs : List ArrowIdentifierCollection) (x : String) :
    idsOf (severParent cs x) = idsOf cs := by
  induction cs with
  | nil => rfl
  | cons c t ih =>
    unfold severParent
    by_cases h : (c.identifier == x) = true
    · rw [if_pos h]; rfl
    · rw [if_neg h]
      unfold idsOf at ih ⊢
      simp only [List.map_cons]
      rw [ih]

theorem liveParent_sever_self (cs : List ArrowIdentifierCollection)
    (x : String) : liveParent (severParent cs x) x = none := by
  induction cs with
  | nil => rfl
  | cons c t ih =>
    unfold severParent
    by_cases h : (c.identifier == x) = true
    · rw [if_pos h]
      unfold liveParent
      rw [find?_ident_cons]
      rw [if_pos (by exact h)]
      cases c.hierarchy <;> rfl
    · rw [if_neg h]
      unfold liveParent at ih ⊢
      rw [find?_ident_cons]
      rw [if_neg (by exact h)]
      exact ih

theorem liveParent_sever_ne (cs : List ArrowIdentifierCollection)
    (x y : String) (hxy : y ≠ x) :
    liveParent (severParent cs x) y = liveParent cs y := by
  induction cs with
  | nil => rfl
  | cons c t ih =>
    unfold severParent
    by_cases h : (c.identifier == x) = true
    · rw [if_pos h]
      have hcy : (c.identifier == y) = false := by
        have hcx : c.identifier = x := by simpa using h
        simp only [hcx]
        simp only [beq_eq_false_iff_ne, ne_eq]
        intro he
        exact hxy he.symm
      unfold liveParent
      rw [find?_ident_cons, find?_ident_cons]
      rw [if_neg (by exact (by simp [hcy] : ¬((c.identifier == y) = true))),
        if_neg (by simp [hcy])]
    · rw [if_neg h]
      unfold liveParent at ih ⊢
      rw [find?_ident_cons, find?_ident_cons]
      by_cases hcy : (c.identifier == y) = true
      · rw [if_pos hcy, if_pos hcy]
      · rw [if_neg hcy, if_neg hcy]
        exact ih

theorem liveParent_sever_or (cs : List ArrowIdentifierCollection)
    (x : String) : ∀ y, liveParent (severParent cs x) y = liveParent cs y ∨
      liveParent (severParent cs x) y = none := by
  intro y
  by_cases hxy : y = x
  · subst hxy
    exact Or.inr (liveParent_sever_self cs y)
  · exact Or.inl (liveParent_sever_ne cs x y hxy)

theorem liveParent_not_mem (cs : List ArrowIdentifierCollection) (x : String)
    (h : x ∉ idsOf cs) : liveParent cs x = none := by
  induction cs with
  | nil => rfl
  | cons c t ih =>
    have hcx : (c.identifier == x) = false := by
      have : c.identifier ≠ x := by
        intro he
        exact h (by simp [idsOf, he])
      simp [this]
    unfold liveParent
    rw [find?_ident_cons]
    rw [if_neg (by simp [hcx])]
    have ht : x ∉ idsOf t := by
      intro hm
      apply h
      unfold idsOf at hm ⊢
      simp only [List.map_cons, List.mem_cons]
      exact Or.inr (by simpa [idsOf] using hm)
    exact ih ht

theorem detectCycleF_eq (fuel : Nat) (s : VState) (x : String) :
    detectCycleF (fuel + 1) s x =
      if s.visited.contains x then (s, false)
      else
        match liveParent s.cols x with
        | none =>
          ({ cols := s.cols, visited := x :: s.visited,
             stack := (x :: s.stack).erase x }, false)
        | some p =>
          if (x :: s.visited).contains p then
            if (x :: s.stack).contains p then
              ({ cols := severParent s.cols x, visited := x :: s.visited,
                 stack := x :: s.stack }, true)
            else
              ({ cols := s.cols, visited := x :: s.visited,
                 stack := (x :: s.stack).erase x }, false)
          else
            match detectCycleF fuel
                { cols := s.cols, visited := x :: s.visited,
                  stack := x :: s.stack } p with
            | (s2, true) => (s2, true)
            | (s2, false) => ({ s2 with stack := s2.stack.erase x }, false) := rfl

def countU (s : VState) : Nat :=
  ((idsOf s.cols).filter (fun y => !(s.visited.contains y))).length

theorem countU_cons_lt (s : VState) (x : String)
    (hxid : x ∈ idsOf s.cols) (hxnv : s.visited.contains x = false) :
    countU { cols := s.cols, visited := x :: s.visited, stack := x :: s.stack }
      < countU s := by
  unfold countU
  refine filter_length_lt_of_imp _ _ _ ?_ x hxid (by rw [hxnv]; rfl) (by simp)
  intro y _ hy
  simp only [Bool.not_eq_true', List.contains_cons, Bool.or_eq_false_iff] at hy ⊢
  exact hy.2

theorem rawParent_sever_self (cs : List ArrowIdentifierCollection)
    (x : String) : rawParent (severParent cs x) x = none := by
  induction cs with
  | nil => rfl
  | cons c t ih =>
    unfold severParent
    by_cases h : (c.identifier == x) = true
    · rw [if_pos h]
      unfold rawParent
      rw [find?_ident_cons]
      rw [if_pos (by exact h)]
      cases c.hierarchy <;> rfl
    · rw [if_neg h]
      unfold rawParent at ih ⊢
      rw [find?_ident_cons]
      rw [if_neg (by exact h)]
      exact ih

theorem rawParent_sever_ne (cs : List ArrowIdentifierCollection)
    (x y : String) (hxy : y ≠ x) :
    rawParent (severParent cs x) y = rawParent cs y := by
  induction cs with
  | nil => rfl
  | cons c t ih =>
    unfold severParent
    by_cases h : (c.identifier == x) = true
    · rw [if_pos h]
      have hcy : (c.identifier == y) = false := by
        have hcx : c.identifier = x := by simpa using h
        simp only [hcx]
        simp only [beq_eq_false_iff_ne, ne_eq]
        intro he
        exact hxy he.symm
      unfold rawParent
      rw [find?_ident_cons, find?_ident_cons]
      rw [if_neg (by simp [hcy]), if_neg (by simp [hcy])]
    · rw [if_neg h]
      unfold rawParent at ih ⊢
      rw [find?_ident_cons, find?_ident_cons]
      by_cases hcy : (c.identifier == y) = true
      · rw [if_pos hcy, if_pos hcy]
      · rw [if_neg hcy, if_neg hcy]
        exact ih

theorem rawParent_sever_or (cs : List ArrowIdentifierCollection)
    (x : String) : ∀ y, rawParent (severParent cs x) y = rawParent cs y ∨
      rawParent (severParent cs x) y = none := by
  intro y
  by_cases hxy : y = x
  · subst hxy
    exact Or.inr (rawParent_sever_self cs y)
  · exact Or.inl (rawParent_sever_ne cs x y hxy)

/-- Postcondition of one `detectCycle` call: edges only shrink, identifiers
are stable, visited grows and contains the argument, the stack stays inside
visited; on a `false` return the stack is restored, all fully-processed
(visited, off-stack) nodes are cycle-free and so is the argument; on a `true`
return every visited node is cycle-free (the severed edge killed the one
cycle the current chain could lie on; stale stack entries are dead). -/
structure DCSpec (s : VState) (x : String) (r : VState × Bool) : Prop where
  edges : ∀ y, liveParent r.1.cols y = liveParent s.cols y ∨
    liveParent r.1.cols y = none
  rawEdges : ∀ y, rawParent r.1.cols y = rawParent s.cols y ∨
    rawParent r.1.cols y = none
  ids : idsOf r.1.cols = idsOf s.cols
  visMono : ∀ y, y ∈ s.visited → y ∈ r.1.visited
  selfVis : x ∈ r.1.visited
  stackVis : ∀ y ∈ r.1.stack, y ∈ r.1.visited
  onFalse : r.2 = false →
    r.1.stack = s.stack ∧
    (∀ y, y ∈ r.1.visited → y ∉ r.1.stack → ¬ CycL r.1.cols y) ∧
    ¬ CycL r.1.cols x
  onTrue : r.2 = true → ∀ y, y ∈ r.1.visited → ¬ CycL r.1.cols y

theorem detectCycle_spec :
    ∀ (fuel : Nat) (s : VState) (x : String),
      countU s < fuel →
      x ∈ idsOf s.cols →
      s.visited.contains x = false →
      (∀ y ∈ s.stack, y ∈ s.visited) →
      (∀ y p, liveParent s.cols y = some p → p ∈ idsOf s.cols) →
      (∀ y, y ∈ s.visited → y ∉ s.stack → ¬ CycL s.cols y) →
      (∀ y, y ∈ s.visited → y ∈ s.stack → CycL s.cols y →
        ∃ j, pLiveIter s.cols j y = some x) →
      DCSpec s x (detectCycleF fuel s x) := by
  intro fuel
  induction fuel with
  | zero => intro s x hfuel; exact absurd hfuel (Nat.not_lt_zero _)
  | succ fuel ih =>
    intro s x hfuel hxid hxnv hsv hcl hA hB
    have hxv : x ∉ s.visited := by
      intro hm
      rw [(contains_iff_mem_str _ _).mpr hm] at hxnv
      cases hxnv
    rw [detectCycleF_eq]
    rw [hxnv]
    rw [if_neg (by simp)]
    cases hlp : liveParent s.cols x with
    | none =>
      rw [List.erase_cons_head]
      refine ⟨fun y => Or.inl rfl, fun y => Or.inl rfl, rfl, fun y hy => List.mem_cons_of_mem x hy,
        List.mem_cons_self x s.visited,
        fun y hy => List.mem_cons_of_mem x (hsv y hy), ?_, ?_⟩
      · intro _
        refine ⟨rfl, ?_, cycL_none hlp⟩
        intro y hy hns
        rcases List.mem_cons.mp hy with rfl | hy2
        · exact cycL_none hlp
        · exact hA y hy2 hns
      · intro h
        cases h
    | some p =>
      show DCSpec s x (if (x :: s.visited).contains p then (if (x :: s.stack).contains p then ({ cols := severParent s.cols x, visited := x :: s.visited, stack := x :: s.stack }, true) else ({ cols := s.cols, visited := x :: s.visited, stack := (x :: s.stack).erase x }, false)) else (match detectCycleF fuel { cols := s.cols, visited := x :: s.visited, stack := x :: s.stack } p with | (s2, true) => (s2, true) | (s2, false) => ({ s2 with stack := s2.stack.erase x }, false)))
      by_cases hpv : ((x :: s.visited).contains p) = true
      · rw [if_pos hpv]
        by_cases hps : ((x :: s.stack).contains p) = true
        · rw [if_pos hps]
          have hE := liveParent_sever_or s.cols x
          refine ⟨hE, rawParent_sever_or s.cols x, severParent_idsOf s.cols x,
            fun y hy => List.mem_cons_of_mem x hy,
            List.mem_cons_self x s.visited,
            fun y hy => ?_, ?_, ?_⟩
          · rcases List.mem_cons.mp hy with rfl | hy2
            · exact List.mem_cons_self y s.visited
            · exact List.mem_cons_of_mem x (hsv y hy2)
          · intro h
            cases h
          · intro _ y hyvis hcyc
            have hcyc0 : CycL s.cols y := cycL_mono hE hcyc
            rcases List.mem_cons.mp hyvis with rfl | hy2
            · exact cycL_none (liveParent_sever_self s.cols y) hcyc
            · by_cases hys : y ∈ s.stack
              · obtain ⟨j, hj⟩ := hB y hy2 hys hcyc0
                obtain ⟨k, hk, hkit⟩ := hcyc
                have hall := pLiveIter_isSome_of_cyc hk hkit
                have hj2 : pLiveIter (severParent s.cols x) j y = some x := by
                  have hsme := hall j
                  cases hjit : pLiveIter (severParent s.cols x) j y with
                  | none => rw [hjit] at hsme; cases hsme
                  | some v =>
                    have hv := pLiveIter_mono hE j y v hjit
                    rw [hj] at hv
                    have hvx : v = x := (Option.some.injEq _ _).mp hv.symm
                    rw [hvx]
                have hj3 : pLiveIter (severParent s.cols x) (j + 1) y = none := by
                  rw [pLiveIter_add _ j 1 y, hj2]
                  simp only [Option.some_bind]
                  show (liveParent (severParent s.cols x) x).bind
                    (pLiveIter (severParent s.cols x) 0) = none
                  rw [liveParent_sever_self]
                  rfl
                have hsme2 := hall (j + 1)
                rw [hj3] at hsme2
                cases hsme2
              · exact hA y hy2 hys hcyc0
        · rw [if_neg hps]
          rw [List.erase_cons_head]
          have hpns : p ∉ x :: s.stack := by
            intro hm
            rw [(contains_iff_mem_str _ _).mpr hm] at hps
            exact hps rfl
          have hncx : ¬ CycL s.cols x := by
            intro hcyc
            have hcp := cycL_shift hlp hcyc
            have hpv2 : p ∈ x :: s.visited := (contains_iff_mem_str _ _).mp hpv
            rcases List.mem_cons.mp hpv2 with rfl | hp2
            · exact hpns (List.mem_cons_self p s.stack)
            · have hpns2 : p ∉ s.stack := fun hm =>
                hpns (List.mem_cons_of_mem x hm)
              exact hA p hp2 hpns2 hcp
          refine ⟨fun y => Or.inl rfl, fun y => Or.inl rfl, rfl, fun y hy => List.mem_cons_of_mem x hy,
            List.mem_cons_self x s.visited,
            fun y hy => List.mem_cons_of_mem x (hsv y hy), ?_, ?_⟩
          · intro _
            refine ⟨rfl, ?_, hncx⟩
            intro y hy hns
            rcases List.mem_cons.mp hy with rfl | hy2
            · exact hncx
            · exact hA y hy2 hns
          · intro h
            cases h
      · rw [if_neg hpv]
        have hpv' : ((x :: s.visited).contains p) = false :=
          Bool.eq_false_iff.mpr hpv
        have hspec := ih { cols := s.cols, visited := x :: s.visited, stack := x :: s.stack } p
          (Nat.lt_of_lt_of_le (countU_cons_lt s x hxid hxnv)
            (Nat.lt_succ_iff.mp hfuel))
          (hcl x p hlp) hpv'
          (fun y hy => by
            rcases List.mem_cons.mp hy with rfl | hy2
            · exact List.mem_cons_self y s.visited
            · exact List.mem_cons_of_mem x (hsv y hy2))
          hcl
          (fun y hy hns => by
            rcases List.mem_cons.mp hy with rfl | hy2
            · exact absurd (List.mem_cons_self y s.stack) hns
            · exact hA y hy2 (fun hm => hns (List.mem_cons_of_mem x hm)))
          (fun y hy hst hcyc => by
            rcases List.mem_cons.mp hy with rfl | hy2
            · exact ⟨1, by
                show (liveParent s.cols y).bind (pLiveIter s.cols 0) = some p
                rw [hlp]
                rfl⟩
            · have hst2 : y ∈ s.stack := by
                rcases List.mem_cons.mp hst with rfl | h2
                · exact absurd hy2 hxv
                · exact h2
              obtain ⟨j, hj⟩ := hB y hy2 hst2 hcyc
              refine ⟨j + 1, ?_⟩
              rw [pLiveIter_add _ j 1 y, hj]
              simp only [Option.some_bind]
              show (liveParent s.cols x).bind (pLiveIter s.cols 0) = some p
              rw [hlp]
              rfl)
        rcases hres : detectCycleF fuel { cols := s.cols, visited := x :: s.visited, stack := x :: s.stack } p with ⟨s2, b⟩
        rw [hres] at hspec
        cases b with
        | true =>
          refine ⟨hspec.edges, hspec.rawEdges, hspec.ids,
            fun y hy => hspec.visMono y (List.mem_cons_of_mem x hy),
            hspec.visMono x (List.mem_cons_self x s.visited),
            hspec.stackVis, ?_, ?_⟩
          · intro h
            cases h
          · intro _ y hy
            exact hspec.onTrue rfl y hy
        | false =>
          obtain ⟨hstk, hA2, hncp⟩ := hspec.onFalse rfl
          have hstk2 : s2.stack = x :: s.stack := hstk
          have hncx : ¬ CycL s2.cols x := by
            rcases hspec.edges x with he | he
            · intro hcyc
              have hlp2 : liveParent s2.cols x = some p := by
                have he2 : liveParent s2.cols x = liveParent s.cols x := he
                rw [he2]
                exact hlp
              exact hncp (cycL_shift hlp2 hcyc)
            · exact cycL_none he
          refine ⟨hspec.edges, hspec.rawEdges, hspec.ids,
            fun y hy => hspec.visMono y (List.mem_cons_of_mem x hy),
            hspec.visMono x (List.mem_cons_self x s.visited),
            fun y hy => hspec.stackVis y (List.mem_of_mem_erase hy), ?_, ?_⟩
          · intro _
            refine ⟨?_, ?_, hncx⟩
            · show s2.stack.erase x = s.stack
              rw [hstk2, List.erase_cons_head]
            · intro y hy hns
              have hns2 : y ∉ s2.stack.erase x := hns
              rw [hstk2, List.erase_cons_head] at hns2
              by_cases hyx : y = x
              · rw [hyx]
                exact hncx
              · refine hA2 y hy ?_
                rw [hstk2]
                intro hm
                rcases List.mem_cons.mp hm with rfl | h2
                · exact hyx rfl
                · exact hns2 h2
          · intro h
            cases h

theorem countU_le (s : VState) : countU s ≤ s.cols.length := by
  unfold countU
  calc ((idsOf s.cols).filter _).length ≤ (idsOf s.cols).length :=
        List.length_filter_le _ _
    _ = s.cols.length := List.length_map _ _

theorem detectCycle_vis_mono :
    ∀ (fuel : Nat) (s : VState) (x y : String), y ∈ s.visited →
      y ∈ (detectCycleF fuel s x).1.visited := by
  intro fuel
  induction fuel with
  | zero => intro s x y hy; exact hy
  | succ fuel ih =>
    intro s x y hy
    rw [detectCycleF_eq]
    by_cases hvis : (s.visited.contains x) = true
    · rw [if_pos hvis]
      exact hy
    · rw [if_neg hvis]
      cases hlp : liveParent s.cols x with
      | none => exact List.mem_cons_of_mem x hy
      | some p =>
        show y ∈ (if (x :: s.visited).contains p then (if (x :: s.stack).contains p then ({ cols := severParent s.cols x, visited := x :: s.visited, stack := x :: s.stack }, true) else ({ cols := s.cols, visited := x :: s.visited, stack := (x :: s.stack).erase x }, false)) else (match detectCycleF fuel { cols := s.cols, visited := x :: s.visited, stack := x :: s.stack } p with | (s2, true) => (s2, true) | (s2, false) => ({ s2 with stack := s2.stack.erase x }, false))).1.visited
        by_cases hpv : ((x :: s.visited).contains p) = true
        · rw [if_pos hpv]
          by_cases hps : ((x :: s.stack).contains p) = true
          · rw [if_pos hps]
            exact List.mem_cons_of_mem x hy
          · rw [if_neg hps]
            exact List.mem_cons_of_mem x hy
        · rw [if_neg hpv]
          have hrec := ih { cols := s.cols, visited := x :: s.visited, stack := x :: s.stack } p y (List.mem_cons_of_mem x hy)
          rcases hres : detectCycleF fuel { cols := s.cols, visited := x :: s.visited, stack := x :: s.stack } p with ⟨s2, b⟩
          rw [hres] at hrec
          cases b with
          | true => exact hrec
          | false => exact hrec

theorem visited_mono_fold :
    ∀ (l : List String) (s : VState) (y : String), y ∈ s.visited →
      y ∈ (l.foldl (fun (s : VState) (i : String) =>
        if s.visited.contains i then s
        else (detectCycleF (s.cols.length + 1) s i).1) s).visited := by
  intro l
  induction l with
  | nil => intro s y hy; exact hy
  | cons i t ih =>
    intro s y hy
    rw [List.foldl_cons]
    by_cases hvis : (s.visited.contains i) = true
    · rw [if_pos hvis]
      exact ih s y hy
    · rw [if_neg hvis]
      exact ih _ y (detectCycle_vis_mono (s.cols.length + 1) s i y hy)

theorem validate_fold :
    ∀ (l : List String) (s : VState),
      (∀ y ∈ s.stack, y ∈ s.visited) →
      (∀ y p, liveParent s.cols y = some p → p ∈ idsOf s.cols) →
      (∀ y ∈ s.visited, ¬ CycL s.cols y) →
      (∀ i ∈ l, i ∈ idsOf s.cols) →
      (∀ y ∈ (l.foldl (fun (s : VState) (i : String) =>
          if s.visited.contains i then s
          else (detectCycleF (s.cols.length + 1) s i).1) s).visited,
        ¬ CycL (l.foldl (fun (s : VState) (i : String) =>
          if s.visited.contains i then s
          else (detectCycleF (s.cols.length + 1) s i).1) s).cols y) ∧
      (∀ i ∈ l, i ∈ (l.foldl (fun (s : VState) (i : String) =>
          if s.visited.contains i then s
          else (detectCycleF (s.cols.length + 1) s i).1) s).visited) ∧
      idsOf (l.foldl (fun (s : VState) (i : String) =>
          if s.visited.contains i then s
          else (detectCycleF (s.cols.length + 1) s i).1) s).cols = idsOf s.cols ∧
      (∀ y, rawParent (l.foldl (fun (s : VState) (i : String) =>
          if s.visited.contains i then s
          else (detectCycleF (s.cols.length + 1) s i).1) s).cols y =
          rawParent s.cols y ∨
        rawParent (l.foldl (fun (s : VState) (i : String) =>
          if s.visited.contains i then s
          else (detectCycleF (s.cols.length + 1) s i).1) s).cols y = none) := by
  intro l
  induction l with
  | nil =>
    intro s hsv hcl hdead hl
    exact ⟨hdead, fun i hi => absurd hi (List.not_mem_nil i),
      rfl, fun y => Or.inl rfl⟩
  | cons i t ih =>
    intro s hsv hcl hdead hl
    rw [List.foldl_cons]
    by_cases hvis : (s.visited.contains i) = true
    · rw [if_pos hvis]
      obtain ⟨h1, h2, h3, h4⟩ := ih s hsv hcl hdead
        (fun j hj => hl j (List.mem_cons_of_mem i hj))
      refine ⟨h1, ?_, h3, h4⟩
      intro j hj
      rcases List.mem_cons.mp hj with rfl | hj2
      · exact visited_mono_fold t s j ((contains_iff_mem_str _ _).mp hvis)
      · exact h2 j hj2
    · rw [if_neg hvis]
      have hvis' : s.visited.contains i = false := Bool.eq_false_iff.mpr hvis
      have hspec := detectCycle_spec (s.cols.length + 1) s i
        (Nat.lt_succ_of_le (countU_le s))
        (hl i (List.mem_cons_self i t)) hvis' hsv hcl
        (fun y hy _ => hdead y hy)
        (fun y hy _ hcyc => absurd hcyc (hdead y hy))
      have hids1 := hspec.ids
      have hdead1 : ∀ y ∈ (detectCycleF (s.cols.length + 1) s i).1.visited,
          ¬ CycL (detectCycleF (s.cols.length + 1) s i).1.cols y := by
        cases hb : (detectCycleF (s.cols.length + 1) s i).2 with
        | true => exact hspec.onTrue hb
        | false =>
          obtain ⟨hstk, hA2, _⟩ := hspec.onFalse hb
          intro y hy
          by_cases hyst : y ∈ (detectCycleF (s.cols.length + 1) s i).1.stack
          · have hyv : y ∈ s.visited := by
              rw [hstk] at hyst
              exact hsv y hyst
            intro hcyc
            exact hdead y hyv (cycL_mono hspec.edges hcyc)
          · exact hA2 y hy hyst
      have hcl1 : ∀ y p,
          liveParent (detectCycleF (s.cols.length + 1) s i).1.cols y = some p →
          p ∈ idsOf (detectCycleF (s.cols.length + 1) s i).1.cols := by
        intro y p hp
        rcases hspec.edges y with he | he
        · rw [he] at hp
          rw [hids1]
          exact hcl y p hp
        · rw [he] at hp
          cases hp
      obtain ⟨h1, h2, h3, h4⟩ := ih (detectCycleF (s.cols.length + 1) s i).1
        hspec.stackVis hcl1 hdead1
        (fun j hj => by
          rw [hids1]
          exact hl j (List.mem_cons_of_mem i hj))
      refine ⟨h1, ?_, h3.trans hids1, ?_⟩
      · intro j hj
        rcases List.mem_cons.mp hj with rfl | hj2
        · exact visited_mono_fold t _ j hspec.selfVis
        · exact h2 j hj2
      · intro y
        rcases h4 y with he | he
        · rcases hspec.rawEdges y with he2 | he2
          · exact Or.inl (he.trans he2)
          · exact Or.inr (he.trans he2)
        · exact Or.inr he

/-- Closure: every (raw) parent id stored in the hierarchy of some collection
is the identifier of a collection in the list. -/
def rawClosed (cs : List ArrowIdentifierCollection) : Prop :=
  ∀ c ∈ cs, ∀ p, (c.hierarchy.bind (fun h => h.parentId)) = some p →
    p ∈ idsOf cs

theorem rawParent_mem_closure {cs : List ArrowIdentifierCollection}
    (hrc : rawClosed cs) {y p : String} (h : rawParent cs y = some p) :
    p ∈ idsOf cs := by
  unfold rawParent at h
  cases hf : cs.find? (fun c => c.identifier == y) with
  | none => rw [hf] at h; cases h
  | some c =>
    rw [hf] at h
    simp only [Option.bind_eq_bind, Option.some_bind] at h
    exact hrc c (List.mem_of_find?_eq_some hf) p h

theorem liveParent_imp_raw {cs : List ArrowIdentifierCollection} {y p : String}
    (h : liveParent cs y = some p) : rawParent cs y = some p := by
  unfold liveParent at h
  cases hr : rawParent cs y with
  | none =>
    unfold rawParent at hr
    rw [hr] at h
    cases h
  | some q =>
    unfold rawParent at hr
    rw [hr] at h
    have h2 : (if (q == "") = true then (none : Option String) else some q) =
        some p := h
    by_cases hq : (q == "") = true
    · rw [if_pos hq] at h2; cases h2
    · rw [if_neg hq] at h2
      exact h2

theorem raw_imp_live {cs : List ArrowIdentifierCollection} {y p : String}
    (hne : p ≠ "") (h : rawParent cs y = some p) : liveParent cs y = some p := by
  unfold liveParent
  unfold rawParent at h
  rw [h]
  show (if (p == "") = true then (none : Option String) else some p) = some p
  rw [if_neg (by simpa using hne)]

theorem rawParent_eq_liveParent {cs : List ArrowIdentifierCollection}
    (hrc : ∀ y p, rawParent cs y = some p → p ∈ idsOf cs)
    (hne : ∀ q ∈ idsOf cs, q ≠ "") :
    ∀ y, rawParent cs y = liveParent cs y := by
  intro y
  cases hr : rawParent cs y with
  | none =>
    have hr2 := hr
    unfold rawParent at hr2
    unfold liveParent
    rw [hr2]
  | some p =>
    exact (raw_imp_live (hne p (hrc y p hr)) hr).symm

theorem liveParent_closed_of_rawClosed {cs : List ArrowIdentifierCollection}
    (hrc : rawClosed cs) : ∀ y p, liveParent cs y = some p → p ∈ idsOf cs :=
  fun _ _ h => rawParent_mem_closure hrc (liveParent_imp_raw h)

theorem pIter_congr {cs : List ArrowIdentifierCollection}
    (h : ∀ y, rawParent cs y = liveParent cs y) :
    ∀ (k : Nat) (x : String), pRawIter cs k x = pLiveIter cs k x := by
  intro k
  induction k with
  | zero => intro x; rfl
  | succ m ih =>
    intro x
    show (rawParent cs x).bind (pRawIter cs m) =
      (liveParent cs x).bind (pLiveIter cs m)
    rw [h x]
    cases liveParent cs x with
    | none => rfl
    | some y =>
      simp only [Option.some_bind]
      exact ih y

theorem validateHierarchy_spec (cs : List ArrowIdentifierCollection)
    (hcl : ∀ y p, liveParent cs y = some p → p ∈ idsOf cs) :
    (∀ x, ¬ CycL (validateHierarchy cs) x) ∧
    idsOf (validateHierarchy cs) = idsOf cs ∧
    (∀ y, rawParent (validateHierarchy cs) y = rawParent cs y ∨
      rawParent (validateHierarchy cs) y = none) := by
  have hfold := validate_fold (idsOf cs)
    { cols := cs, visited := [], stack := [] }
    (fun y hy => absurd hy (List.not_mem_nil y))
    hcl
    (fun y hy => absurd hy (List.not_mem_nil y))
    (fun i hi => hi)
  obtain ⟨h1, h2, h3, h4⟩ := hfold
  refine ⟨?_, ?_, ?_⟩
  · intro x hcyc
    by_cases hx : x ∈ idsOf cs
    · exact h1 x (h2 x hx) hcyc
    · have hnm : x ∉ idsOf (validateHierarchy cs) := by
        intro hm
        apply hx
        have h3e : idsOf (validateHierarchy cs) = idsOf cs := h3
        rw [h3e] at hm
        exact hm
      exact cycL_none (liveParent_not_mem _ x hnm) hcyc
  · exact h3
  · exact h4

/-! ### Closure of the construction passes: every stored parentId is the
identifier of some collection in the list -/

theorem listModify_map {α β : Type} (g : α → β) (f : α → α)
    (hf : ∀ a, g (f a) = g a) :
    ∀ (l : List α) (i : Nat), (listModify l i f).map g = l.map g := by
  intro l
  induction l with
  | nil => intro i; rfl
  | cons a t ih =>
    intro i
    cases i with
    | zero => simp [listModify, hf]
    | succ n => simp [listModify, ih n]

theorem listModify_mem {α : Type} (f : α → α) :
    ∀ (l : List α) (i : Nat) (x : α), x ∈ listModify l i f →
      x ∈ l ∨ ∃ a, a ∈ l ∧ x = f a := by
  intro l
  induction l with
  | nil => intro i x hx; cases hx
  | cons a t ih =>
    intro i x hx
    cases i with
    | zero =>
      rcases List.mem_cons.mp hx with rfl | hx2
      · exact Or.inr ⟨a, List.mem_cons_self a t, rfl⟩
      · exact Or.inl (List.mem_cons_of_mem a hx2)
    | succ n =>
      rcases List.mem_cons.mp hx with rfl | hx2
      · exact Or.inl (List.mem_cons_self x t)
      · rcases ih n x hx2 with h | ⟨b, hb, hxb⟩
        · exact Or.inl (List.mem_cons_of_mem a h)
        · exact Or.inr ⟨b, List.mem_cons_of_mem a hb, hxb⟩

theorem modHier_idsOf (cs : List ArrowIdentifierCollection) (i : Nat)
    (f : HierarchyInfo → HierarchyInfo) : idsOf (modHier cs i f) = idsOf cs := by
  unfold modHier idsOf
  exact listModify_map (fun c => c.identifier) (fun c => { identifier := c.identifier, start := c.start, ends := c.ends, hierarchy := Option.map f c.hierarchy }) (fun a => rfl) cs i

theorem rawPC_modHier (cs : List ArrowIdentifierCollection) (i : Nat)
    (f : HierarchyInfo → HierarchyInfo)
    (hf : (∀ h, (f h).parentId = h.parentId) ∨
      ∃ q, q ∈ idsOf cs ∧ ∀ h, (f h).parentId = some q)
    (hrc : rawClosed cs) : rawClosed (modHier cs i f) := by
  intro c hc p hp
  rw [modHier_idsOf]
  rcases listModify_mem _ cs i c hc with hin | ⟨a, ha, hca⟩
  · exact hrc c hin p hp
  · have hch : c.hierarchy = a.hierarchy.map f := by rw [hca]
    rw [hch] at hp
    cases hah : a.hierarchy with
    | none => rw [hah] at hp; cases hp
    | some h0 =>
      rw [hah] at hp
      simp only [Option.map_some', Option.bind_eq_bind, Option.some_bind] at hp
      rcases hf with hkeep | ⟨q, hq, hset⟩
      · rw [hkeep h0] at hp
        refine hrc a ha p ?_
        rw [hah]
        simpa using hp
      · rw [hset h0] at hp
        cases hp
        exact hq

theorem rawClosed_init (cs : List ArrowIdentifierCollection) :
    rawClosed (initHierarchy cs) := by
  intro c hc p hp
  obtain ⟨a, _, rfl⟩ := List.mem_map.mp hc
  cases hp

theorem rawPC_pass2Attach (cs : List ArrowIdentifierCollection) (i j : Nat)
    (cur pot : ArrowIdentifierCollection) (hpot : pot ∈ cs)
    (hrc : rawClosed cs) :
    rawClosed (pass2Attach cs i j cur pot) ∧
    idsOf (pass2Attach cs i j cur pot) = idsOf cs := by
  have h1 : rawClosed (modHier cs i (fun h => { h with parentId := some pot.identifier, level := ((pot.hierarchy.map (fun h => h.level)).getD 0) + 1, connectionPoint := some (determineConnectionPoint cur pot) })) :=
    rawPC_modHier cs i _
      (Or.inr ⟨pot.identifier,
        List.mem_map.mpr ⟨pot, hpot, rfl⟩, fun h => rfl⟩) hrc
  have h2 : rawClosed (modHier (modHier cs i (fun h => { h with parentId := some pot.identifier, level := ((pot.hierarchy.map (fun h => h.level)).getD 0) + 1, connectionPoint := some (determineConnectionPoint cur pot) })) j (fun h => { h with childIds := h.childIds ++ [cur.identifier] })) :=
    rawPC_modHier _ j _ (Or.inl (fun h => rfl)) h1
  have hid2 : idsOf (modHier (modHier cs i (fun h => { h with parentId := some pot.identifier, level := ((pot.hierarchy.map (fun h => h.level)).getD 0) + 1, connectionPoint := some (determineConnectionPoint cur pot) })) j (fun h => { h with childIds := h.childIds ++ [cur.identifier] })) = idsOf cs := by
    rw [modHier_idsOf, modHier_idsOf]
  unfold pass2Attach
  by_cases hc : (decide ((((((modHier (modHier cs i (fun h => { h with parentId := some pot.identifier, level := ((pot.hierarchy.map (fun h => h.level)).getD 0) + 1, connectionPoint := some (determineConnectionPoint cur pot) })) j (fun h => { h with childIds := h.childIds ++ [cur.identifier] })).get? j).bind (fun c => c.hierarchy)).map (fun h => h.childIds.length)).getD 0) > 1)) = true
  · rw [if_pos hc]
    refine ⟨rawPC_modHier _ j _ (Or.inl (fun h => rfl)) h2, ?_⟩
    rw [modHier_idsOf]
    exact hid2
  · rw [if_neg hc]
    exact ⟨h2, hid2⟩

theorem rawPC_groupChildStep (r : Nat) (cs : List ArrowIdentifierCollection)
    (i : Nat) (hrc : rawClosed cs) :
    rawClosed (groupChildStep r cs i) ∧
    idsOf (groupChildStep r cs i) = idsOf cs := by
  unfold groupChildStep
  cases hgr : cs.get? r with
  | none => exact ⟨hrc, rfl⟩
  | some rootC =>
    cases hgi : cs.get? i with
    | none => exact ⟨hrc, rfl⟩
    | some cur =>
      have hroot : rootC ∈ cs := List.get?_mem hgr
      have h1 : rawClosed (modHier cs i (fun h => { h with parentId := some rootC.identifier, level := 1, connectionPoint := some (determineConnectionPoint cur rootC) })) :=
        rawPC_modHier cs i _
          (Or.inr ⟨rootC.identifier,
            List.mem_map.mpr ⟨rootC, hroot, rfl⟩, fun h => rfl⟩) hrc
      refine ⟨rawPC_modHier _ r _ (Or.inl (fun h => rfl)) h1, ?_⟩
      rw [modHier_idsOf, modHier_idsOf]

theorem rawPC_applyGroup (cs : List ArrowIdentifierCollection) (g : List Nat)
    (hrc : rawClosed cs) :
    rawClosed (applyGroup cs g) ∧ idsOf (applyGroup cs g) = idsOf cs := by
  unfold applyGroup
  cases g with
  | nil => exact ⟨hrc, rfl⟩
  | cons r rest =>
    have h1 : rawClosed (modHier cs r (fun h => { h with level := 0, isJunction := decide ((r :: rest).length > 1) })) :=
      rawPC_modHier cs r _ (Or.inl (fun h => rfl)) hrc
    have hid1 : idsOf (modHier cs r (fun h => { h with level := 0, isJunction := decide ((r :: rest).length > 1) })) = idsOf cs :=
      modHier_idsOf cs r _
    have hfold : ∀ (l : List Nat) (b : List ArrowIdentifierCollection),
        rawClosed b → idsOf b = idsOf cs →
        rawClosed (l.foldl (groupChildStep r) b) ∧
        idsOf (l.foldl (groupChildStep r) b) = idsOf cs := by
      intro l
      induction l with
      | nil => intro b hb hid; exact ⟨hb, hid⟩
      | cons a t ih =>
        intro b hb hid
        rw [List.foldl_cons]
        obtain ⟨hb2, hid2⟩ := rawPC_groupChildStep r b a hb
        exact ih _ hb2 (hid2.trans hid)
    exact hfold rest _ h1 hid1

theorem rawPC_pass1 (cs : List ArrowIdentifierCollection)
    (hrc : rawClosed cs) :
    rawClosed (pass1 cs) ∧ idsOf (pass1 cs) = idsOf cs := by
  unfold pass1
  have hfold : ∀ (l : List (List Nat)) (b : List ArrowIdentifierCollection),
      rawClosed b → idsOf b = idsOf cs →
      rawClosed (l.foldl (fun acc g => if g.length ≤ 1 then acc else applyGroup acc g) b) ∧
      idsOf (l.foldl (fun acc g => if g.length ≤ 1 then acc else applyGroup acc g) b) = idsOf cs := by
    intro l
    induction l with
    | nil => intro b hb hid; exact ⟨hb, hid⟩
    | cons g t ih =>
      intro b hb hid
      rw [List.foldl_cons]
      by_cases hg : g.length ≤ 1
      · rw [if_pos hg]
        exact ih b hb hid
      · rw [if_neg hg]
        obtain ⟨hb2, hid2⟩ := rawPC_applyGroup b g hb
        exact ih _ hb2 (hid2.trans hid)
  exact hfold (bracketGroups cs) cs hrc rfl

theorem rawPC_pass2Inner (i : Nat) :
    ∀ (js : List Nat) (cs : List ArrowIdentifierCollection), rawClosed cs →
      rawClosed (pass2Inner i cs js) ∧
      idsOf (pass2Inner i cs js) = idsOf cs := by
  intro js
  induction js with
  | nil => intro cs hrc; exact ⟨hrc, rfl⟩
  | cons j t ih =>
    intro cs hrc
    have hB : pass2Inner i cs (j :: t) =
        (if i == j then pass2Inner i cs t
         else match cs.get? i, cs.get? j with
         | some cur, some pot =>
           if (pot.hierarchy.map (fun h => h.childIds.contains cur.identifier)).getD false then
             pass2Inner i cs t
           else if !((pot.hierarchy.map (fun h => h.isJunction)).getD false) &&
               decide (((pot.hierarchy.map (fun h => h.childIds.length)).getD 0) > 0) then
             pass2Inner i cs t
           else if areArrowsAligned cur pot then
             pass2Attach cs i j cur pot
           else pass2Inner i cs t
         | _, _ => pass2Inner i cs t) := rfl
    rw [hB]
    by_cases hij : (i == j) = true
    · rw [if_pos hij]
      exact ih cs hrc
    · rw [if_neg hij]
      cases hgi : cs.get? i with
      | none => exact ih cs hrc
      | some cur =>
        cases hgj : cs.get? j with
        | none => exact ih cs hrc
        | some pot =>
          show rawClosed (if (pot.hierarchy.map (fun h => h.childIds.contains cur.identifier)).getD false then pass2Inner i cs t else if !((pot.hierarchy.map (fun h => h.isJunction)).getD false) && decide (((pot.hierarchy.map (fun h => h.childIds.length)).getD 0) > 0) then pass2Inner i cs t else if areArrowsAligned cur pot then pass2Attach cs i j cur pot else pass2Inner i cs t) ∧ idsOf (if (pot.hierarchy.map (fun h => h.childIds.contains cur.identifier)).getD false then pass2Inner i cs t else if !((pot.hierarchy.map (fun h => h.isJunction)).getD false) && decide (((pot.hierarchy.map (fun h => h.childIds.length)).getD 0) > 0) then pass2Inner i cs t else if areArrowsAligned cur pot then pass2Attach cs i j cur pot else pass2Inner i cs t) = idsOf cs
          by_cases hc1 : ((pot.hierarchy.map (fun h => h.childIds.contains cur.identifier)).getD false) = true
          · rw [if_pos hc1]
            exact ih cs hrc
          · rw [if_neg hc1]
            by_cases hc2 : (!((pot.hierarchy.map (fun h => h.isJunction)).getD false) && decide (((pot.hierarchy.map (fun h => h.childIds.length)).getD 0) > 0)) = true
            · rw [if_pos hc2]
              exact ih cs hrc
            · rw [if_neg hc2]
              by_cases hc3 : (areArrowsAligned cur pot) = true
              · rw [if_pos hc3]
                exact rawPC_pass2Attach cs i j cur pot (List.get?_mem hgj) hrc
              · rw [if_neg hc3]
                exact ih cs hrc

theorem rawPC_pass2Outer :
    ∀ (l : List Nat) (cs : List ArrowIdentifierCollection), rawClosed cs →
      rawClosed (pass2Outer cs l) ∧ idsOf (pass2Outer cs l) = idsOf cs := by
  intro l
  induction l with
  | nil => intro cs hrc; exact ⟨hrc, rfl⟩
  | cons i t ih =>
    intro cs hrc
    have hB : pass2Outer cs (i :: t) =
        (if truthyStr (((cs.get? i).bind (fun c => c.hierarchy)).bind (fun h => h.parentId)) then pass2Outer cs t
         else pass2Outer (pass2Inner i cs (List.range cs.length)) t) := rfl
    rw [hB]
    by_cases hp : (truthyStr (((cs.get? i).bind (fun c => c.hierarchy)).bind (fun h => h.parentId))) = true
    · rw [if_pos hp]
      exact ih cs hrc
    · rw [if_neg hp]
      obtain ⟨h1, h2⟩ := rawPC_pass2Inner i (List.range cs.length) cs hrc
      obtain ⟨h3, h4⟩ := ih _ h1
      exact ⟨h3, h4.trans h2⟩

theorem initHierarchy_idsOf (cs : List ArrowIdentifierCollection) :
    idsOf (initHierarchy cs) = idsOf cs := by
  induction cs with
  | nil => rfl
  | cons c t ih =>
    unfold initHierarchy idsOf at ih ⊢
    simp only [List.map_cons]
    rw [ih]

/-- The `""`/`"a"` pair: pass 1 roots the bracket group at the connector with
the empty identifier, pass 2 then attaches it under "a", and the repair pass
cannot see the resulting 2-cycle because `"a"`'s parentId `""` is falsy. -/
def c2pair : List ArrowIdentifierCollection := [mkC8 "" 0 0, mkC8 "a" 0 10]

/-- **C2, counterexample to the unamended claim.**  On `c2pair` the output
contains the connector with identifier `""`, and following `parentId` twice
from it returns to it: `"" → "a" → ""` — a revisit within `length = 2`
steps.  `detectCycle` misses the cycle because it tests
`if (collection?.hierarchy?.parentId)` and the empty-string parent id is JS
falsy. -/
theorem c2_counterexample_empty_identifier :
    "" ∈ idsOf (buildArrowHierarchy c2pair) ∧
    (buildArrowHierarchy c2pair).length = 2 ∧
    pRawIter (buildArrowHierarchy c2pair) 2 "" = some "" := by decide

/-- **C2 (amended: nonempty identifiers).**  If every input identifier is
nonempty, then in the output of `buildArrowHierarchy` the graph induced by
`hierarchy.parentId` links is acyclic: following `parentId` any positive
number of steps from any identifier never returns to it (in particular no
connector is revisited within `length` steps). -/
theorem c2_parent_links_acyclic (cs : List ArrowIdentifierCollection)
    (hne : ∀ c ∈ cs, c.identifier ≠ "") :
    ∀ (x : String) (k : Nat), 0 < k →
      pRawIter (buildArrowHierarchy cs) k x ≠ some x := by
  have hinit : rawClosed (initHierarchy cs) := rawClosed_init cs
  have hid0 : idsOf (initHierarchy cs) = idsOf cs := initHierarchy_idsOf cs
  obtain ⟨h1, hid1⟩ := rawPC_pass1 (initHierarchy cs) hinit
  obtain ⟨h2, hid2⟩ := rawPC_pass2Outer
    (List.range (pass1 (initHierarchy cs)).length) (pass1 (initHierarchy cs)) h1
  have hcl3 : ∀ y p, liveParent (pass2Outer (pass1 (initHierarchy cs)) (List.range (pass1 (initHierarchy cs)).length)) y = some p →
      p ∈ idsOf (pass2Outer (pass1 (initHierarchy cs)) (List.range (pass1 (initHierarchy cs)).length)) :=
    liveParent_closed_of_rawClosed h2
  obtain ⟨hnocyc, hidV, hsub⟩ := validateHierarchy_spec (pass2Outer (pass1 (initHierarchy cs)) (List.range (pass1 (initHierarchy cs)).length)) hcl3
  have hrp : ∀ y p,
      rawParent (validateHierarchy (pass2Outer (pass1 (initHierarchy cs)) (List.range (pass1 (initHierarchy cs)).length))) y = some p →
      p ∈ idsOf (validateHierarchy (pass2Outer (pass1 (initHierarchy cs)) (List.range (pass1 (initHierarchy cs)).length))) := by
    intro y p hp
    rcases hsub y with he | he
    · rw [he] at hp
      rw [hidV]
      exact rawParent_mem_closure h2 hp
    · rw [he] at hp
      cases hp
  have hne3 : ∀ q ∈ idsOf (validateHierarchy (pass2Outer (pass1 (initHierarchy cs)) (List.range (pass1 (initHierarchy cs)).length))), q ≠ "" := by
    intro q hq
    rw [hidV, hid2, hid1, hid0] at hq
    obtain ⟨c, hc, rfl⟩ := List.mem_map.mp hq
    exact hne c hc
  have heq := rawParent_eq_liveParent hrp hne3
  intro x k hk hit
  have hit2 : pLiveIter (validateHierarchy (pass2Outer (pass1 (initHierarchy cs)) (List.range (pass1 (initHierarchy cs)).length))) k x = some x := by
    rw [← pIter_congr heq k x]
    exact hit
  exact hnocyc x ⟨k, hk, hit2⟩

def c2w : List ArrowIdentifierCollection := [mkC8 "u" 0 0, mkC8 "v" 0 10]

/-- Witness: the amended C2 theorem applied to the nonempty-identifier pair
`c2w`. -/
theorem c2_witness :
    (∀ c ∈ c2w, c.identifier ≠ "") ∧
    pRawIter (buildArrowHierarchy c2w) 2 "u" ≠ some "u" :=
  ⟨by decide, c2_parent_links_acyclic c2w (by decide) "u" 2 (by decide)⟩
